import Mathlib

/-! # GregTrackCpp: foreground masks and frame-to-frame deltas

A shallow embedding of `GregTrackCpp/main.cpp`.

* Images are FreeImage bitmaps. `accessPixels()` yields the bytes of the bitmap, scanline
  after scanline, every scanline padded to a multiple of 4 bytes (its pitch). The loops of
  the program traverse these bytes with pointer increments and never consult the pitch.
* Copying an image (construction from another image, capture by value) yields an equal
  image. Assigning one (`fipImage::operator=`) clones the source and replaces the handle,
  and replacing by a null clone does nothing: assigning a null image leaves the target as
  it was.
* The decoder (`fipImage::load`), the resampler (`FreeImage_Rescale`), `std::sort` and the
  multiplication of two `float`s are collaborators outside the program; they are fields of
  `Env`.
* A task created by `concurrency::create_task` is represented by the value its `get()`
  returns, which does not depend on the moment the task runs.
* `float` values are rationals; the only float comparison in the program has an integer
  below `2^24` on its left, which the conversion to `float` represents exactly.
* `int` counters are unbounded integers (a directory never holds `2^31` entries).
-/

namespace GregTrack

/-! ## Paths, bytes, bitmaps -/

/-- A `boost::filesystem::path`, split the way the program queries it: the directory it
lies in, `filename()` and `extension()` (the extension includes the dot). -/
structure path where
  parent : String
  filename : String
  extension : String
deriving DecidableEq, Repr

/-- The C type `BYTE` (`unsigned char`). -/
abbrev BYTE := Fin 256

/-- Conversion of a non-negative `int` to `BYTE`: reduction modulo `2^8`. -/
def toBYTE (n : Nat) : BYTE := ⟨n % 256, Nat.mod_lt n (by decide)⟩

/-- The two resampling filters the blur uses. -/
inductive FREE_IMAGE_FILTER where
  | FILTER_BILINEAR
  | FILTER_BICUBIC
deriving DecidableEq, Repr

/-- FreeImage's width of a scanline in bytes, for `width` pixels of `bpp` bits. -/
def CalculateLine (width bpp : Nat) : Nat := (width * bpp + 7) / 8

/-- FreeImage's pitch of a scanline of `line` bytes: `line` rounded up to a multiple of 4
(`(line + 3) & ~3`). -/
def CalculatePitch (line : Nat) : Nat := (line + 3) / 4 * 4

/-- An allocated FreeImage bitmap: `FreeImage_GetWidth`, `FreeImage_GetHeight`,
`FreeImage_GetBPP` (bits per pixel) and the bytes behind `accessPixels()`, which are
`height` scanlines of `FreeImage_GetPitch` bytes each.
FreeImage never allocates a bitmap without pixels, hence the two positivity fields. -/
structure FIBITMAP where
  width : Nat
  height : Nat
  bpp : Nat
  bits : List BYTE
  width_pos : 0 < width
  height_pos : 0 < height
deriving DecidableEq

/-- Value of `FreeImage_GetPitch`: the distance in bytes between two scanlines. -/
def FreeImage_GetPitch (d : FIBITMAP) : Nat := CalculatePitch (CalculateLine d.width d.bpp)

/-- A `fipImage` (`typedef fipImage Image`): a possibly null bitmap handle. -/
structure Image where
  dib : Option FIBITMAP
deriving DecidableEq

/-- Value of `fipImage::isValid()`. -/
def Image.isValid (img : Image) : Bool := img.dib.isSome

/-- Value of `fipImage::accessPixels()`; a null handle has no bytes. -/
def Image.accessPixels (img : Image) : List BYTE :=
  match img.dib with
  | some d => d.bits
  | none => []

/-- Value of `FreeImage_GetWidth` on an image. -/
def Image.getWidth (img : Image) : Nat :=
  match img.dib with
  | some d => d.width
  | none => 0

/-- Value of `FreeImage_GetHeight` on an image. -/
def Image.getHeight (img : Image) : Nat :=
  match img.dib with
  | some d => d.height
  | none => 0

/-- Value of `FreeImage_GetBPP` on an image. -/
def Image.getBPP (img : Image) : Nat :=
  match img.dib with
  | some d => d.bpp
  | none => 0

/-- The constructor `Image(FIT_BITMAP, width, height, bpp)`: it allocates only when all
three numbers are non-zero; the fresh bitmap has `height` scanlines of the pitch of
`width` pixels, all bytes zero. -/
def Image.alloc (width height bpp : Nat) : Image :=
  if h : 0 < width ∧ 0 < height ∧ 0 < bpp then
    ⟨some ⟨width, height, bpp,
      List.replicate (CalculatePitch (CalculateLine width bpp) * height) 0, h.1, h.2.1⟩⟩
  else ⟨none⟩

/-- The effect of a loop that stores the bytes `dst` through the pointer `accessPixels()`,
advancing it by one after each store: the first `dst.length` bytes are overwritten. -/
def Image.store (img : Image) (dst : List BYTE) : Image :=
  match img.dib with
  | some d => ⟨some { d with bits := dst ++ d.bits.drop dst.length }⟩
  | none => img

/-- The assignment `dst = src` of images (`fipImage::operator=`): the clone of `src`
replaces the bitmap of `dst`, except that a null clone replaces nothing. -/
def Image.assign (dst src : Image) : Image :=
  match src.dib with
  | some d => ⟨some d⟩
  | none => dst

/-- The assignment `dst = src` of `tuple<int, path, Image>`: member by member. -/
def assignTuple (dst src : Int × path × Image) : Int × path × Image :=
  (src.1, src.2.1, dst.2.2.assign src.2.2)

/-- The collaborators of the program that are not part of it. -/
structure Env where
  /-- The decoder behind `img.load(path)`: the bitmap, or nothing when loading fails. -/
  load : path → Option FIBITMAP
  /-- The resampler `FreeImage_Rescale(dib, width, height, filter)`. -/
  FreeImage_Rescale : FIBITMAP → Nat → Nat → FREE_IMAGE_FILTER → Option FIBITMAP
  /-- The algorithm `std::sort` with the comparator of `main`, acting on the vector
  `foregrounds`. -/
  sort : List (Int × path × Image) → List (Int × path × Image)
  /-- The product of two `float`s, rounded as the machine rounds it. -/
  fmul : ℚ → ℚ → ℚ
  /-- The rounded square of a `float` is not negative. -/
  fmul_self_nonneg : ∀ t, 0 ≤ fmul t t

/-- What has become of the element `t` of the vector `l` when `std::sort` has put it in its
place, as `t'`: index and path are those of `t`; the image is that of `t` when it is
valid; when it is null, the place shows either no bitmap or the bitmap that an element
with a valid image left there, since assigning a null image replaces nothing. -/
def Relocated (l : List (Int × path × Image)) (t t' : Int × path × Image) : Prop :=
  t'.1 = t.1 ∧ t'.2.1 = t.2.1 ∧
    (t.2.2.isValid = true → t'.2.2 = t.2.2) ∧
    (t.2.2.isValid = false →
      t'.2.2 = ⟨none⟩ ∨ ∃ u ∈ l, u.2.2.isValid = true ∧ t'.2.2 = u.2.2)

/-- What `std::sort` guarantees for the comparator `get<0>(t1) < get<0>(t2)` on a vector of
`tuple<int, path, Image>`, whose elements it moves by construction and assignment: the
result holds the elements of a rearrangement of the input in which no element has a smaller
index than an element before it, each as `Relocated` describes. The order of elements with
equal indices is left open. -/
def SortsByIndex (sort : List (Int × path × Image) → List (Int × path × Image)) : Prop :=
  ∀ l, ∃ l', l'.Perm l ∧ l'.Pairwise (fun t1 t2 => ¬ t2.1 < t1.1) ∧
    List.Forall₂ (Relocated l) l' (sort l)

/-- The method `fipImage::rescale`: a null image and a failed resampling leave the image as
it is, otherwise the handle is replaced by the resampled bitmap. -/
def Image.rescale (env : Env) (img : Image) (width height : Nat)
    (filter : FREE_IMAGE_FILTER) : Image :=
  match img.dib with
  | none => img
  | some d =>
    match env.FreeImage_Rescale d width height filter with
    | none => img
    | some d2 => ⟨some d2⟩

/-! ## CreateForegroundMaskAsync -/

/-- Body of the inner loop of `CreateForegroundMaskAsync` when `srcA` and `srcB` have both
advanced by `off` bytes. -/
def maskByte (srcA srcB : List BYTE) (off : Nat) (bgThreshSq : ℚ) : BYTE :=
  let r : Int := ((srcA.getD (off + 0) 0).val : Int) - ((srcB.getD (off + 0) 0).val : Int)
  let g : Int := ((srcA.getD (off + 1) 0).val : Int) - ((srcB.getD (off + 1) 0).val : Int)
  let b : Int := ((srcA.getD (off + 2) 0).val : Int) - ((srcB.getD (off + 2) 0).val : Int)
  let deltaSq : ℚ := ((r * r + g * g + b * b : Int) : ℚ)
  if deltaSq > bgThreshSq then 255 else 0

/-- The two nested loops of `CreateForegroundMaskAsync`: the bytes stored through `dst`, in
order. In iteration `(yi, xi)` both sources have advanced by `bpp * (yi * width + xi)`. -/
def maskLoop (width height bpp : Nat) (srcA srcB : List BYTE) (bgThreshSq : ℚ) : List BYTE :=
  (List.range height).flatMap fun yi =>
    (List.range width).map fun xi =>
      maskByte srcA srcB (bpp * (yi * width + xi)) bgThreshSq

/-- One iteration of the blur loop. -/
def blurStep (env : Env) (width height : Nat) (imgDelta : Image) : Image :=
  (imgDelta.rescale env (width / 4) (height / 4) FREE_IMAGE_FILTER.FILTER_BILINEAR).rescale
    env width height FREE_IMAGE_FILTER.FILTER_BICUBIC

/-- The blur loop `for (int i = 0; i < blurIterations; ++i)`. -/
def blur (env : Env) (blurIterations : Int) (width height : Nat) (imgDelta : Image) : Image :=
  (blurStep env width height)^[blurIterations.toNat] imgDelta

/-- The task `CreateForegroundMaskAsync`: the tuple the task returns. A failed load throws
inside the `try`, and the function then returns index `-1` with the image that failed to
load. -/
def CreateForegroundMaskAsync (env : Env) (index : Int) (imgFilepath : path) (imgBG : Image)
    (bgThreshSq : ℚ) (blurIterations : Int) : Int × path × Image :=
  match env.load imgFilepath with
  | none => (-1, imgFilepath, ⟨none⟩)
  | some img =>
    let width := img.width
    let height := img.height
    let bpp := img.bpp / 8
    let imgDelta := Image.alloc width height 8
    let srcA := img.bits
    let srcB := imgBG.accessPixels
    let imgDelta := imgDelta.store (maskLoop width height bpp srcA srcB bgThreshSq)
    let imgDelta := blur env blurIterations width height imgDelta
    (index, imgFilepath, imgDelta)

/-! ## CreateAndSaveDeltaAsync -/

/-- The expression `min(255, 2 * (BYTE)abs((int)*srcA - (int)*srcB))` stored to a `BYTE`. -/
def deltaByte (a b : BYTE) : BYTE :=
  toBYTE (min 255 (2 * (toBYTE (Int.natAbs ((a.val : Int) - (b.val : Int)))).val))

/-- The two nested loops of `CreateAndSaveDeltaAsync`: the bytes stored through `dst`. In
iteration `(yi, xi)` the three pointers have advanced by `yi * width + xi`. -/
def deltaLoop (width height : Nat) (srcA srcB : List BYTE) : List BYTE :=
  (List.range height).flatMap fun yi =>
    (List.range width).map fun xi =>
      deltaByte (srcA.getD (yi * width + xi) 0) (srcB.getD (yi * width + xi) 0)

/-- The task `CreateAndSaveDeltaAsync`: the file it hands to `imgDD.save`, or nothing when
it returns before saving. The parameter `index` is not used by the body. -/
def CreateAndSaveDeltaAsync (_index : Int) (outFilepath : path) (imgA imgB : Image) :
    Option (path × Image) :=
  if !imgA.isValid || !imgB.isValid then none
  else
    let width := imgA.getWidth
    let height := imgA.getHeight
    let imgDD := Image.alloc width height 8
    let srcA := imgA.accessPixels
    let srcB := imgB.accessPixels
    let imgDD := imgDD.store (deltaLoop width height srcA srcB)
    if !imgDD.isValid then none
    else some (outFilepath, imgDD)

/-! ## main -/

/-- One call `CreateAndSaveDeltaAsync(index, outFilepath, imgA, imgB)` made by `main`,
together with the element `t` of `foregrounds` of the loop iteration that made it. -/
structure DeltaTask where
  index : Int
  outFilepath : path
  imgA : Image
  imgB : Image
  source : Int × path × Image
deriving DecidableEq

/-- The file the delta task saves, if any. -/
def DeltaTask.saved (d : DeltaTask) : Option (path × Image) :=
  CreateAndSaveDeltaAsync d.index d.outFilepath d.imgA d.imgB

/-- Whether the delta task writes an image. -/
def DeltaTask.writes (d : DeltaTask) : Bool := d.saved.isSome

/-- The variables of the frame loop of `main`, and a record of what the loop did:
`chunks` holds every `foregrounds` vector as collected (before sorting), `deltaImageTasks`
every delta task in launch order, `maxPending` the largest size `foregroundImageTasks`
ever had. -/
structure MainState where
  fileCount : Int
  seam : Int × path × Image
  foregroundImageTasks : List (Int × path × Image)
  chunks : List (List (Int × path × Image))
  deltaImageTasks : List DeltaTask
  maxPending : Nat

/-- The first directory loop of `main`: `numFiles` and `lastFramePath`. -/
def countFrames (listing : List path) : Int × path :=
  listing.foldl
    (fun acc x => if x.extension != ".jpg" then acc else (acc.1 + 1, x))
    (0, ⟨"", "", ""⟩)

/-- The loop `for (auto& t : foregrounds)` that launches the delta tasks; `index` is the
value of `fileCount - 1` at that moment. The task receives copies of `prevImg` and `img`;
`prevImg = img` is an assignment of images. -/
def emitDeltas (index : Int) (outFolderPath : String) :
    Image → List (Int × path × Image) → List DeltaTask
  | _, [] => []
  | prevImg, t :: ts =>
    let inPath := t.2.1
    let outFilepath : path := ⟨outFolderPath, inPath.filename, inPath.extension⟩
    let img := t.2.2
    ⟨index, outFilepath, prevImg, img, t⟩ ::
      emitDeltas index outFolderPath (prevImg.assign img) ts

/-- The block guarded by `(fileCount % chunkSize) == 0 || fileCount == numFiles`: collect,
sort, launch the deltas, assign the last element of the sorted vector to the seam. -/
def drain (env : Env) (outFolderPath : String) (st : MainState) : MainState :=
  let foregrounds := st.foregroundImageTasks
  let sorted := env.sort foregrounds
  let prevImg := st.seam.2.2
  { st with
    foregroundImageTasks := []
    chunks := st.chunks ++ [foregrounds]
    deltaImageTasks :=
      st.deltaImageTasks ++ emitDeltas (st.fileCount - 1) outFolderPath prevImg sorted
    seam :=
      match sorted.getLast? with
      | some t => assignTuple st.seam t
      | none => st.seam }

/-- One iteration of the frame loop of `main` for the directory entry `x`. -/
def loopBody (env : Env) (outFolderPath : String) (imgBG : Image) (bgThreshSq : ℚ)
    (chunkSize blurIterations numFiles : Int) (st : MainState) (x : path) : MainState :=
  let st := { st with fileCount := st.fileCount + 1 }
  if x.extension != ".jpg" then st
  else
    let tasks := st.foregroundImageTasks ++
      [CreateForegroundMaskAsync env (st.fileCount - 1) x imgBG bgThreshSq blurIterations]
    let st := { st with
      foregroundImageTasks := tasks
      maxPending := max st.maxPending tasks.length }
    if Int.tmod st.fileCount chunkSize == 0 || st.fileCount == numFiles then
      drain env outFolderPath st
    else st

/-- The state before the first iteration: `fileCount = 0`, a default-constructed `seam`,
no pending task. -/
def initialState : MainState :=
  { fileCount := 0
    seam := (0, ⟨"", "", ""⟩, ⟨none⟩)
    foregroundImageTasks := []
    chunks := []
    deltaImageTasks := []
    maxPending := 0 }

/-- The frame loop of `main` run over the directory entries `entries`. -/
def frameLoop (env : Env) (outFolderPath : String) (imgBG : Image) (bgThreshSq : ℚ)
    (chunkSize blurIterations numFiles : Int) (entries : List path) : MainState :=
  entries.foldl
    (loopBody env outFolderPath imgBG bgThreshSq chunkSize blurIterations numFiles)
    initialState

/-- The part of `main` that processes an existing input directory whose entries are
`listing`: the final state of the frame loop, or nothing when loading the background
throws (that exception is not caught). -/
def main (env : Env) (listing : List path) (outFolderPath : String) (bgThreshold : ℚ)
    (chunkSize blurIterations : Int) : Option MainState :=
  let bgThreshSq := env.fmul bgThreshold bgThreshold
  let (numFiles, lastFramePath) := countFrames listing
  match env.load lastFramePath with
  | none => none
  | some bg =>
    let imgBG : Image := ⟨some bg⟩
    some (frameLoop env outFolderPath imgBG bgThreshSq chunkSize blurIterations numFiles
      listing)

/-- The delta tasks `main` launches, in launch order (none when `main` throws). -/
def launched (env : Env) (listing : List path) (outFolderPath : String) (bgThreshold : ℚ)
    (chunkSize blurIterations : Int) : List DeltaTask :=
  match main env listing outFolderPath bgThreshold chunkSize blurIterations with
  | some st => st.deltaImageTasks
  | none => []

/-- The `foregrounds` vectors `main` collects at its drain barriers, one per chunk, each in
the order of the `get()` calls (none when `main` throws). -/
def collected (env : Env) (listing : List path) (outFolderPath : String) (bgThreshold : ℚ)
    (chunkSize blurIterations : Int) : List (List (Int × path × Image)) :=
  match main env listing outFolderPath bgThreshold chunkSize blurIterations with
  | some st => st.chunks
  | none => []

/-- The delta tasks of `main` that write an image, in launch order. -/
def written (env : Env) (listing : List path) (outFolderPath : String) (bgThreshold : ℚ)
    (chunkSize blurIterations : Int) : List DeltaTask :=
  (launched env listing outFolderPath bgThreshold chunkSize blurIterations).filter
    DeltaTask.writes

/-! ## Vocabulary for the statements -/

/-- The bytes of the pixel in column `xi` of scanline `yi` of a bitmap: `bpp / 8` bytes
starting at byte `yi * pitch + xi * (bpp / 8)`. -/
def FIBITMAP.pixelAt (d : FIBITMAP) (xi yi : Nat) : List BYTE :=
  (d.bits.drop (yi * FreeImage_GetPitch d + xi * (d.bpp / 8))).take (d.bpp / 8)

/-- Channel `c` of the pixel at `(xi, yi)`, as an integer. -/
def FIBITMAP.channel (d : FIBITMAP) (xi yi c : Nat) : Int :=
  (((d.pixelAt xi yi).getD c 0).val : Int)

/-- Squared colour distance of the pixels at `(xi, yi)` of two bitmaps over their first
three channels. -/
def sqDist (fg bg : FIBITMAP) (xi yi : Nat) : Int :=
  (fg.channel xi yi 0 - bg.channel xi yi 0) ^ 2 +
    (fg.channel xi yi 1 - bg.channel xi yi 1) ^ 2 +
    (fg.channel xi yi 2 - bg.channel xi yi 2) ^ 2

/-- Whether a foreground tuple carries a valid image. -/
def validT (t : Int × path × Image) : Bool := t.2.2.isValid

/-- The image of the last tuple of `l`, or `prev` when `l` is empty. -/
def lastImg (prev : Image) (l : List (Int × path × Image)) : Image :=
  (l.getLast?.map fun t => t.2.2).getD prev

/-- The output path `main` builds for the foreground tuple `t`. -/
def outPath (outFolderPath : String) (t : Int × path × Image) : path :=
  ⟨outFolderPath, t.2.1.filename, t.2.1.extension⟩

/-- The pair (previous image, foreground tuple) a delta task was launched for. -/
def DeltaTask.link (d : DeltaTask) : Image × (Int × path × Image) := (d.imgA, d.source)

/-- The pairs (image of the tuple before, tuple) along `l`, `prev` standing before the
first tuple, in which both images are valid. -/
def chain : Image → List (Int × path × Image) → List (Image × (Int × path × Image))
  | _, [] => []
  | prev, t :: ts =>
    (if prev.isValid && t.2.2.isValid then [(prev, t)] else []) ++ chain t.2.2 ts

/-- The masking tasks the frame loop submits for the entries `l` when the entries before
them number `n`: one per `.jpg` entry, with the entry's position as index. -/
def tasksFrom (env : Env) (imgBG : Image) (bgThreshSq : ℚ) (blurIterations : Int) :
    Nat → List path → List (Int × path × Image)
  | _, [] => []
  | n, x :: xs =>
    (if x.extension != ".jpg" then []
      else [CreateForegroundMaskAsync env (n : Int) x imgBG bgThreshSq blurIterations]) ++
      tasksFrom env imgBG bgThreshSq blurIterations (n + 1) xs

/-- What the frame loop maintains while every collected result is valid: the written
deltas pair each collected result with the image of the one before it, the seam image is
the image of the last collected result, and every delta task was launched for a collected
tuple, with that tuple's image as second image and its file name as output name. -/
def DeltaInv (outFolderPath : String) (st : MainState) : Prop :=
  (st.deltaImageTasks.filter DeltaTask.writes).map DeltaTask.link =
      chain ⟨none⟩ st.chunks.flatten ∧
    st.seam.2.2 = lastImg ⟨none⟩ st.chunks.flatten ∧
    ∀ d ∈ st.deltaImageTasks,
      d.source ∈ st.chunks.flatten ∧ d.imgB = d.source.2.2 ∧
        d.outFilepath = outPath outFolderPath d.source

/-- The background image `main` loads for `listing`: the last `.jpg` entry, decoded. -/
def backgroundOf (env : Env) (listing : List path) : Image :=
  ⟨env.load (countFrames listing).2⟩

/-- The tuple of the masking task `main` submits for the entry `x` found at position `i`
of `listing`. -/
def frameTask (env : Env) (listing : List path) (bgThreshold : ℚ) (blurIterations : Int)
    (i : Nat) (x : path) : Int × path × Image :=
  CreateForegroundMaskAsync env (i : Int) x (backgroundOf env listing)
    (env.fmul bgThreshold bgThreshold) blurIterations

/-! ## A concrete environment for examples -/

/-- A `.jpg` entry of the input folder. -/
def jpg (name : String) : path := ⟨"in", name, ".jpg"⟩

/-- An entry of the input folder that is not a `.jpg` file. -/
def txt (name : String) : path := ⟨"in", name, ".txt"⟩

/-- A 24-bit bitmap of one pixel whose three channels hold `c`: one scanline of 3 bytes,
padded to 4. -/
def px (c : BYTE) : FIBITMAP := ⟨1, 1, 24, [c, c, c, 0], by decide, by decide⟩

/-- A 24-bit bitmap of 2 by 2 grey pixels: `a`, `b` in scanline 0 and `c`, `d` in scanline
1, every scanline of 6 bytes padded to 8. -/
def rgb2x2 (a b c d : BYTE) : FIBITMAP :=
  ⟨2, 2, 24, [a, a, a, b, b, b, 0, 0, c, c, c, d, d, d, 0, 0], by decide, by decide⟩

/-- An 8-bit bitmap of 2 by 2 pixels: `a`, `b` in scanline 0 and `c`, `d` in scanline 1,
every scanline of 2 bytes padded to 4. -/
def gray2x2 (a b c d : BYTE) : FIBITMAP :=
  ⟨2, 2, 8, [a, b, 0, 0, c, d, 0, 0], by decide, by decide⟩

/-- The inner loop of the insertion sort: `val` is the element being placed, the list
holds the places before the hole, nearest first, and `hole` is what the hole holds. The
result lists the places from the hole downwards. -/
def insertVal (val : Int × path × Image) :
    List (Int × path × Image) → Int × path × Image → List (Int × path × Image)
  | [], hole => [assignTuple hole val]
  | s :: rest, hole =>
    if val.1 < s.1 then assignTuple hole s :: insertVal val rest s
    else assignTuple hole val :: s :: rest

/-- The insertion sort that `std::sort` of the Microsoft library (the one `ppltasks.h`
belongs to) runs on a vector of at most 32 elements: every element in turn is copied to a
temporary, the larger elements before it are assigned one place up, and the temporary is
assigned to the place that has become free. -/
def insertionSortUnchecked (l : List (Int × path × Image)) : List (Int × path × Image) :=
  (l.foldl (fun places x => insertVal x places x) []).reverse

/-- An environment in which the files named in `bad` fail to decode, those named in
`bright` decode to a light one-pixel bitmap and every other file to a dark one; resampling
always fails; products of small whole numbers are exact. -/
def demoEnv (bad bright : List String) : Env :=
  { load := fun p =>
      if p.filename ∈ bad then none
      else if p.filename ∈ bright then some (px 200) else some (px 6)
    FreeImage_Rescale := fun _ _ _ _ => none
    sort := insertionSortUnchecked
    fmul := fun a b =>
      if a.den = 1 ∧ b.den = 1 then ((a.num * b.num : Int) : ℚ) else a * b
    fmul_self_nonneg := fun t => by
      show 0 ≤ (if t.den = 1 ∧ t.den = 1 then ((t.num * t.num : Int) : ℚ) else t * t)
      split_ifs
      · exact Int.cast_nonneg.mpr (mul_self_nonneg t.num)
      · exact mul_self_nonneg t }

/-- An environment in which every file decodes to the bitmap `d`. -/
def oneFrameEnv (d : FIBITMAP) : Env :=
  { demoEnv [] [] with load := fun _ => some d }

/-- Five `.jpg` frames. -/
def five : List path :=
  [jpg "f0.jpg", jpg "f1.jpg", jpg "f2.jpg", jpg "f3.jpg", jpg "f4.jpg"]

/-- The mask `main` computes for frame `i` of `five` with threshold 48 and no blur (null
when the frame does not decode). -/
def maskOfFive (env : Env) (i : Nat) : Image :=
  match five[i]? with
  | some x => (frameTask env five 48 0 i x).2.2
  | none => ⟨none⟩

/-! ## Images and the two tasks -/

theorem Image.eq_none_of_not_valid {img : Image} (h : img.isValid = false) : img = ⟨none⟩ := by
  cases img with
  | mk d => cases d <;> simp_all [Image.isValid]

theorem Image.alloc_valid {w h b : Nat} (hw : 0 < w) (hh : 0 < h) (hb : 0 < b) :
    (Image.alloc w h b).isValid = true := by
  simp [Image.alloc, hw, hh, hb, Image.isValid]

theorem Image.store_valid (img : Image) (dst : List BYTE) :
    (img.store dst).isValid = img.isValid := by
  cases img with
  | mk d => cases d <;> simp [Image.store, Image.isValid]

theorem Image.rescale_valid (env : Env) (img : Image) (w h : Nat) (f : FREE_IMAGE_FILTER) :
    (img.rescale env w h f).isValid = img.isValid := by
  cases img with
  | mk d =>
    cases d with
    | none => simp [Image.rescale, Image.isValid]
    | some d =>
      simp only [Image.rescale]
      cases env.FreeImage_Rescale d w h f <;> simp [Image.isValid]

theorem blur_valid (env : Env) (n : Int) (w h : Nat) (img : Image) :
    (blur env n w h img).isValid = img.isValid := by
  unfold blur
  generalize n.toNat = k
  induction k generalizing img with
  | zero => rfl
  | succ k ih =>
    rw [Function.iterate_succ_apply, ih]
    simp [blurStep, Image.rescale_valid]

theorem CFMA_some {env : Env} {x : path} {img : FIBITMAP} (h : env.load x = some img)
    (i : Int) (bg : Image) (q : ℚ) (n : Int) :
    (CreateForegroundMaskAsync env i x bg q n).1 = i ∧
    (CreateForegroundMaskAsync env i x bg q n).2.1 = x ∧
    (CreateForegroundMaskAsync env i x bg q n).2.2.isValid = true := by
  simp [CreateForegroundMaskAsync, h, blur_valid, Image.store_valid,
    Image.alloc_valid img.width_pos img.height_pos]

theorem CFMA_none {env : Env} {x : path} (h : env.load x = none)
    (i : Int) (bg : Image) (q : ℚ) (n : Int) :
    CreateForegroundMaskAsync env i x bg q n = (-1, x, ⟨none⟩) := by
  simp [CreateForegroundMaskAsync, h]

theorem CFMA_path (env : Env) (x : path) (i : Int) (bg : Image) (q : ℚ) (n : Int) :
    (CreateForegroundMaskAsync env i x bg q n).2.1 = x := by
  unfold CreateForegroundMaskAsync
  cases env.load x <;> rfl

theorem CFMA_valid (env : Env) (x : path) (i : Int) (bg : Image) (q : ℚ) (n : Int) :
    (CreateForegroundMaskAsync env i x bg q n).2.2.isValid = (env.load x).isSome := by
  cases h : env.load x with
  | none => rw [CFMA_none h]; rfl
  | some img => simpa using (CFMA_some h i bg q n).2.2

theorem writes_iff (d : DeltaTask) : d.writes = (d.imgA.isValid && d.imgB.isValid) := by
  unfold DeltaTask.writes DeltaTask.saved CreateAndSaveDeltaAsync
  cases hA : d.imgA with
  | mk a =>
    cases a with
    | none => simp [Image.isValid]
    | some a =>
      cases hB : d.imgB.isValid with
      | false => simp [Image.isValid]
      | true =>
        have hDD : ∀ l, ((Image.alloc a.width a.height 8).store l).isValid = true := fun l => by
          rw [Image.store_valid]
          exact Image.alloc_valid a.width_pos a.height_pos (by decide)
        have hv : (Image.mk (some a)).isValid = true := rfl
        simp [hv, Image.getWidth, Image.getHeight, hDD]


theorem Image.assign_valid (dst : Image) {src : Image} (h : src.isValid = true) :
    dst.assign src = src := by
  cases src with
  | mk d => cases d <;> simp_all [Image.assign, Image.isValid]

theorem Image.assign_none (dst : Image) : dst.assign ⟨none⟩ = dst := rfl

/-! ## The delta loop -/

theorem lastImg_nil (p : Image) : lastImg p [] = p := rfl

theorem lastImg_concat (p : Image) (l : List (Int × path × Image)) (t : Int × path × Image) :
    lastImg p (l ++ [t]) = t.2.2 := by
  simp [lastImg]

theorem lastImg_append (p : Image) (a b : List (Int × path × Image)) :
    lastImg p (a ++ b) = lastImg (lastImg p a) b := by
  unfold lastImg
  rw [List.getLast?_append]
  cases b.getLast? <;> simp

theorem lastImg_cons (p : Image) (t : Int × path × Image) (l : List (Int × path × Image)) :
    lastImg p (t :: l) = lastImg t.2.2 l := by
  have := lastImg_append p [t] l
  simpa [lastImg] using this

theorem lastImg_of_ne_nil {l : List (Int × path × Image)} (h : l ≠ []) (p q : Image) :
    lastImg p l = lastImg q l := by
  unfold lastImg
  cases hl : l.getLast? with
  | none => simp_all
  | some t => rfl

theorem chain_append (p : Image) (a b : List (Int × path × Image)) :
    chain p (a ++ b) = chain p a ++ chain (lastImg p a) b := by
  induction a generalizing p with
  | nil => rfl
  | cons t ts ih => simp [chain, ih, lastImg_cons]

theorem emitDeltas_shape (idx : Int) (out : String) (p : Image) (l : List (Int × path × Image)) :
    ∀ d ∈ emitDeltas idx out p l,
      d.source ∈ l ∧ d.imgB = d.source.2.2 ∧ d.outFilepath = outPath out d.source := by
  induction l generalizing p with
  | nil => simp [emitDeltas]
  | cons t ts ih =>
    intro d hd
    simp only [emitDeltas, List.mem_cons] at hd
    rcases hd with rfl | hd
    · simp [outPath]
    · obtain ⟨h1, h2, h3⟩ := ih _ d hd
      exact ⟨List.mem_cons_of_mem _ h1, h2, h3⟩


theorem emitDeltas_links (idx : Int) (out : String) (p : Image)
    {l : List (Int × path × Image)} (hl : ∀ t ∈ l, validT t = true) :
    ((emitDeltas idx out p l).filter DeltaTask.writes).map DeltaTask.link = chain p l := by
  induction l generalizing p with
  | nil => rfl
  | cons t ts ih =>
    have ht : t.2.2.isValid = true := hl t (List.mem_cons_self _ _)
    have ih' := ih (p := t.2.2) (fun u hu => hl u (List.mem_cons_of_mem _ hu))
    simp only [emitDeltas, chain, List.filter_cons, writes_iff, Image.assign_valid p ht]
    by_cases h : (p.isValid && t.2.2.isValid) = true
    · simp [h, ih', DeltaTask.link]
    · simp [h, ih']

theorem lastImg_mem_valid {l : List (Int × path × Image)} (hl : ∀ t ∈ l, validT t = true)
    {t : Int × path × Image} (ht : l.getLast? = some t) (s : Int × path × Image)
    (p : Image) : (assignTuple s t).2.2 = lastImg p l := by
  have hv : t.2.2.isValid = true := hl t (List.mem_of_getLast?_eq_some ht)
  simp [assignTuple, Image.assign_valid _ hv, lastImg, ht]

/-! ## Sorting a chunk -/

theorem sorted_perm_unique {l1 l2 : List (Int × path × Image)} (hp : l2.Perm l1)
    (h1 : l1.Pairwise (fun a b => a.1 < b.1)) (h2 : l2.Pairwise (fun a b => ¬ b.1 < a.1)) :
    l2 = l1 := by
  have hnd1 : (l1.map fun t => t.1).Nodup :=
    (List.pairwise_map.mpr h1).imp (fun h => ne_of_lt h)
  have hnd2 : (l2.map fun t => t.1).Nodup := (hp.map _).nodup_iff.mpr hnd1
  have hne : l2.Pairwise (fun a b => a.1 ≠ b.1) := List.pairwise_map.mp hnd2
  have h2s : l2.Pairwise (fun a b => a.1 < b.1) :=
    (h2.and hne).imp (fun h => lt_of_le_of_ne (not_lt.mp h.1) h.2)
  haveI : IsAntisymm (Int × path × Image) (fun a b => a.1 < b.1) :=
    ⟨fun a b hab hba => absurd (lt_trans hab hba) (lt_irrefl _)⟩
  exact List.eq_of_perm_of_sorted hp h2s h1


theorem forall₂_relocated_valid {l a s : List (Int × path × Image)}
    (h : List.Forall₂ (Relocated l) a s) (ha : ∀ t ∈ a, validT t = true) : s = a := by
  induction h with
  | nil => rfl
  | @cons t t' a s hr _ ih =>
    obtain ⟨h1, h2, h3, -⟩ := hr
    have ht : t.2.2.isValid = true := ha t (List.mem_cons_self _ _)
    have e : t' = t := by
      rcases t with ⟨i, p, img⟩
      rcases t' with ⟨i', p', img'⟩
      simp only at h1 h2 h3 ht
      rw [h1, h2, h3 ht]
    rw [e, ih (fun u hu => ha u (List.mem_cons_of_mem _ hu))]

/-- A conforming sort returns a vector of valid results with strictly ascending indices
unchanged. -/
theorem sort_valid_ascending {sort : List (Int × path × Image) → List (Int × path × Image)}
    (hsort : SortsByIndex sort) {l : List (Int × path × Image)}
    (hvalid : ∀ t ∈ l, validT t = true) (hasc : l.Pairwise (fun a b => a.1 < b.1)) :
    sort l = l := by
  obtain ⟨l', hperm, hsorted, hrel⟩ := hsort l
  have e : l' = l := sorted_perm_unique hperm hasc hsorted
  rw [e] at hrel
  exact forall₂_relocated_valid hrel hvalid

/-! ## The masking tasks of a listing -/

theorem tasksFrom_append (env : Env) (bg : Image) (q : ℚ) (bl : Int) (n : Nat)
    (a b : List path) :
    tasksFrom env bg q bl n (a ++ b) =
      tasksFrom env bg q bl n a ++ tasksFrom env bg q bl (n + a.length) b := by
  induction a generalizing n with
  | nil => simp [tasksFrom]
  | cons x xs ih =>
    have e : n + 1 + xs.length = n + (xs.length + 1) := by omega
    show _ ++ tasksFrom env bg q bl (n + 1) (xs ++ b) = _
    rw [ih, e]
    simp only [tasksFrom, List.length_cons, List.append_assoc]

theorem tasksFrom_bounds (env : Env) (bg : Image) (q : ℚ) (bl : Int) (n : Nat)
    (l : List path) :
    ∀ t ∈ tasksFrom env bg q bl n l,
      (validT t = false → t.1 = -1 ∧ t.2.2 = ⟨none⟩) ∧
      (validT t = true → (n : Int) ≤ t.1 ∧ t.1 < (n : Int) + l.length) := by
  induction l generalizing n with
  | nil => simp [tasksFrom]
  | cons x xs ih =>
    intro t ht
    simp only [tasksFrom, List.mem_append] at ht
    rcases ht with ht | ht
    · cases hx : (x.extension != ".jpg") with
      | true => simp [hx] at ht
      | false =>
        simp only [hx, Bool.false_eq_true, if_false, List.mem_singleton] at ht
        subst ht
        cases hl : env.load x with
        | none =>
          rw [CFMA_none hl]
          simp [validT, Image.isValid]
        | some img =>
          obtain ⟨h1, -, h3⟩ := CFMA_some hl (n : Int) bg q bl
          simp only [validT, h3, h1, List.length_cons]
          refine ⟨by simp, fun _ => ⟨le_refl _, ?_⟩⟩
          push_cast
          omega
    · obtain ⟨h1, h2⟩ := ih (n + 1) t ht
      refine ⟨h1, fun hv => ?_⟩
      have := h2 hv
      simp only [List.length_cons]
      push_cast at this ⊢
      omega

theorem tasksFrom_ascending (env : Env) (bg : Image) (q : ℚ) (bl : Int) (n : Nat)
    (l : List path) :
    (tasksFrom env bg q bl n l).Pairwise (fun a b => validT b = true → a.1 < b.1) := by
  induction l generalizing n with
  | nil => simp [tasksFrom]
  | cons x xs ih =>
    simp only [tasksFrom]
    rw [List.pairwise_append]
    refine ⟨?_, ih (n + 1), ?_⟩
    · cases hx : (x.extension != ".jpg") <;> simp [hx]
    · intro a ha b hb hv
      have hb' := (tasksFrom_bounds env bg q bl (n + 1) xs b hb).2 hv
      have ha' := tasksFrom_bounds env bg q bl n [x] a (by simpa [tasksFrom] using ha)
      cases hva : validT a with
      | false =>
        have := (ha'.1 hva).1
        push_cast at hb'
        omega
      | true =>
        have := (ha'.2 hva).2
        simp only [List.length_singleton] at this
        push_cast at hb' this
        omega

/-! ## The frame loop -/

theorem loopBody_skip (env : Env) (out : String) (bg : Image) (q : ℚ) (C bl nf : Int)
    (st : MainState) (x : path) (hx : (x.extension != ".jpg") = true) :
    loopBody env out bg q C bl nf st x = { st with fileCount := st.fileCount + 1 } := by
  simp [loopBody, hx]

theorem loopBody_jpg (env : Env) (out : String) (bg : Image) (q : ℚ) (C bl nf : Int)
    (st : MainState) (x : path) (hx : (x.extension != ".jpg") = false) :
    loopBody env out bg q C bl nf st x =
      if Int.tmod (st.fileCount + 1) C = 0 ∨ st.fileCount + 1 = nf then
        drain env out { st with
          fileCount := st.fileCount + 1
          foregroundImageTasks := st.foregroundImageTasks ++
            [CreateForegroundMaskAsync env st.fileCount x bg q bl]
          maxPending := max st.maxPending (st.foregroundImageTasks.length + 1) }
      else { st with
          fileCount := st.fileCount + 1
          foregroundImageTasks := st.foregroundImageTasks ++
            [CreateForegroundMaskAsync env st.fileCount x bg q bl]
          maxPending := max st.maxPending (st.foregroundImageTasks.length + 1) } := by
  simp [loopBody, hx]

theorem frameLoop_concat (env : Env) (out : String) (bg : Image) (q : ℚ) (C bl nf : Int)
    (pre : List path) (x : path) :
    frameLoop env out bg q C bl nf (pre ++ [x]) =
      loopBody env out bg q C bl nf (frameLoop env out bg q C bl nf pre) x := by
  simp [frameLoop, List.foldl_append]

/-- Bookkeeping of the frame loop: `fileCount` counts the entries seen, and the collected
chunks followed by the pending tasks are the tasks submitted so far, in order. -/
theorem frameLoop_tasks (env : Env) (out : String) (bg : Image) (q : ℚ) (C bl nf : Int)
    (pre : List path) :
    (frameLoop env out bg q C bl nf pre).fileCount = pre.length ∧
    (frameLoop env out bg q C bl nf pre).chunks.flatten ++
        (frameLoop env out bg q C bl nf pre).foregroundImageTasks =
      tasksFrom env bg q bl 0 pre := by
  induction pre using List.reverseRecOn with
  | nil => simp [frameLoop, initialState, tasksFrom]
  | append_singleton pre x ih =>
    obtain ⟨ih1, ih2⟩ := ih
    rw [frameLoop_concat, tasksFrom_append, ← ih2]
    cases hx : (x.extension != ".jpg") with
    | true =>
      rw [loopBody_skip _ _ _ _ _ _ _ _ _ hx]
      simp [ih1, tasksFrom, hx]
    | false =>
      rw [loopBody_jpg _ _ _ _ _ _ _ _ _ hx]
      split
      · simp [drain, ih1, tasksFrom, hx]
      · simp [ih1, tasksFrom, hx]

theorem infix_wellformed {env : Env} {bg : Image} {q : ℚ} {bl : Int} {l : List path}
    {A P B : List (Int × path × Image)} (h : A ++ P ++ B = tasksFrom env bg q bl 0 l) :
    (∀ t ∈ P, validT t = false → t.1 = -1 ∧ t.2.2 = ⟨none⟩) ∧
    (∀ t ∈ P, validT t = true → 0 ≤ t.1) ∧
    P.Pairwise (fun a b => validT b = true → a.1 < b.1) := by
  have hmem : ∀ t ∈ P, t ∈ tasksFrom env bg q bl 0 l := fun t ht => by
    rw [← h]; exact List.mem_append_left _ (List.mem_append_right _ ht)
  refine ⟨fun t ht => (tasksFrom_bounds env bg q bl 0 l t (hmem t ht)).1, ?_, ?_⟩
  · intro t ht hv
    have := ((tasksFrom_bounds env bg q bl 0 l t (hmem t ht)).2 hv).1
    simpa using this
  · have := tasksFrom_ascending env bg q bl 0 l
    rw [← h] at this
    exact (List.pairwise_append.mp (List.pairwise_append.mp this).1).2.1

theorem valid_ascending {l : List (Int × path × Image)}
    (hasc : l.Pairwise (fun a b => validT b = true → a.1 < b.1)) :
    (l.filter validT).Pairwise (fun a b => a.1 < b.1) := by
  have := hasc.filter validT
  refine (List.pairwise_iff_forall_sublist.mpr ?_)
  intro a b hab
  have hb : b ∈ l.filter validT := hab.subset (by simp)
  exact (List.pairwise_iff_forall_sublist.mp this hab) (List.mem_filter.mp hb).2

theorem tasksFrom_mem (env : Env) (bg : Image) (q : ℚ) (bl : Int) (n : Nat) (l : List path)
    (t : Int × path × Image) (ht : t ∈ tasksFrom env bg q bl n l) :
    ∃ i x, l[i]? = some x ∧ (x.extension != ".jpg") = false ∧
      t = CreateForegroundMaskAsync env ((n + i : Nat) : Int) x bg q bl := by
  induction l generalizing n with
  | nil => simp [tasksFrom] at ht
  | cons y ys ih =>
    simp only [tasksFrom, List.mem_append] at ht
    rcases ht with ht | ht
    · cases hy : (y.extension != ".jpg") with
      | true => simp [hy] at ht
      | false =>
        simp only [hy, Bool.false_eq_true, if_false, List.mem_singleton] at ht
        exact ⟨0, y, by simp, hy, by simpa using ht⟩
    · obtain ⟨i, x, h1, h2, h3⟩ := ih (n + 1) ht
      refine ⟨i + 1, x, by simpa using h1, h2, ?_⟩
      rw [h3]
      congr 2
      omega

theorem DeltaInv_initial (out : String) : DeltaInv out initialState := by
  simp [DeltaInv, initialState, chain, lastImg]

/-- Draining a chunk of valid results with strictly ascending indices keeps `DeltaInv`. -/
theorem drain_DeltaInv {env : Env} (hsort : SortsByIndex env.sort) (out : String)
    (st : MainState) (hinv : DeltaInv out st)
    (hvalid : ∀ t ∈ st.foregroundImageTasks, validT t = true)
    (hasc : st.foregroundImageTasks.Pairwise (fun a b => a.1 < b.1)) :
    DeltaInv out (drain env out st) := by
  obtain ⟨hW, hS, hSh⟩ := hinv
  have hsorted : env.sort st.foregroundImageTasks = st.foregroundImageTasks :=
    sort_valid_ascending hsort hvalid hasc
  have hchunks : (drain env out st).chunks.flatten =
      st.chunks.flatten ++ st.foregroundImageTasks := by
    simp [drain]
  refine ⟨?_, ?_, ?_⟩
  · rw [hchunks, chain_append, ← hW, ← hS]
    simp only [drain, hsorted, List.filter_append, List.map_append]
    rw [emitDeltas_links _ _ _ hvalid]
  · rw [hchunks, lastImg_append, ← hS]
    simp only [drain, hsorted]
    cases hl : st.foregroundImageTasks.getLast? with
    | none =>
      have : st.foregroundImageTasks = [] := List.getLast?_eq_none_iff.mp hl
      rw [this]; rfl
    | some t => exact lastImg_mem_valid hvalid hl _ _
  · intro d hd
    simp only [drain, hsorted, List.mem_append] at hd
    rw [hchunks]
    rcases hd with hd | hd
    · obtain ⟨h1, h2, h3⟩ := hSh d hd
      exact ⟨List.mem_append_left _ h1, h2, h3⟩
    · obtain ⟨h1, h2, h3⟩ := emitDeltas_shape _ _ _ _ d hd
      exact ⟨List.mem_append_right _ h1, h2, h3⟩

/-- The frame loop maintains `DeltaInv` as long as every submitted task succeeds. -/
theorem frameLoop_DeltaInv {env : Env} (hsort : SortsByIndex env.sort) (out : String)
    (bg : Image) (q : ℚ) (C bl nf : Int) (pre : List path)
    (hv : ∀ r ∈ tasksFrom env bg q bl 0 pre, validT r = true) :
    DeltaInv out (frameLoop env out bg q C bl nf pre) := by
  induction pre using List.reverseRecOn with
  | nil => exact DeltaInv_initial out
  | append_singleton pre x ih =>
    have hv' : ∀ r ∈ tasksFrom env bg q bl 0 pre, validT r = true := by
      intro r hr
      apply hv
      rw [tasksFrom_append]
      exact List.mem_append_left _ hr
    have ih' := ih hv'
    have hb := (frameLoop_tasks env out bg q C bl nf (pre ++ [x])).2
    rw [frameLoop_concat] at hb ⊢
    cases hx : (x.extension != ".jpg") with
    | true =>
      rw [loopBody_skip _ _ _ _ _ _ _ _ _ hx]
      exact ih'
    | false =>
      rw [loopBody_jpg _ _ _ _ _ _ _ _ _ hx] at hb ⊢
      split
      · rename_i hc
        rw [if_pos hc] at hb
        have hb' : (frameLoop env out bg q C bl nf pre).chunks.flatten ++
            ((frameLoop env out bg q C bl nf pre).foregroundImageTasks ++
              [CreateForegroundMaskAsync env (frameLoop env out bg q C bl nf pre).fileCount
                x bg q bl]) ++ [] = tasksFrom env bg q bl 0 (pre ++ [x]) := by
          simpa [drain] using hb
        have hw := infix_wellformed hb'
        have hval : ∀ t ∈ (frameLoop env out bg q C bl nf pre).foregroundImageTasks ++
              [CreateForegroundMaskAsync env (frameLoop env out bg q C bl nf pre).fileCount
                x bg q bl], validT t = true := by
          intro t ht
          apply hv
          rw [← hb']
          simp only [List.append_nil]
          exact List.mem_append_right _ ht
        refine drain_DeltaInv hsort out _ ih' hval ?_
        have := valid_ascending hw.2.2
        rwa [List.filter_eq_self.mpr hval] at this
      · exact ih'

/-! ## What `main` launches -/

theorem main_eq (env : Env) (listing : List path) (out : String) (t : ℚ) (C bl : Int) :
    main env listing out t C bl =
      (env.load (countFrames listing).2).map fun bg =>
        frameLoop env out ⟨some bg⟩ (env.fmul t t) C bl (countFrames listing).1 listing := by
  unfold main
  cases h : env.load (countFrames listing).2 <;> simp [h]

theorem succ_div_mod (n C : Nat) (hC : 0 < C) :
    ((n + 1) % C = 0 → n % C + 1 = C ∧ (n + 1) / C = n / C + 1) ∧
    ((n + 1) % C ≠ 0 → (n + 1) % C = n % C + 1 ∧ (n + 1) / C = n / C) := by
  have hlt := Nat.mod_lt n hC
  have hsplit : n + 1 = (n % C + 1) + C * (n / C) := by
    have := Nat.div_add_mod n C
    omega
  have hmod : (n + 1) % C = (n % C + 1) % C := by
    rw [hsplit, Nat.add_mul_mod_self_left]
  have hdiv : (n + 1) / C = (n % C + 1) / C + n / C := by
    conv_lhs => rw [hsplit]
    rw [Nat.add_mul_div_left _ _ hC]
  by_cases h : n % C + 1 < C
  · rw [Nat.mod_eq_of_lt h] at hmod
    rw [Nat.div_eq_of_lt h] at hdiv
    constructor
    · intro h0; omega
    · intro _; exact ⟨hmod, by omega⟩
  · have he : n % C + 1 = C := by omega
    rw [he, Nat.mod_self] at hmod
    rw [he, Nat.div_self hC] at hdiv
    constructor
    · intro _; exact ⟨he, by omega⟩
    · intro h0; exact absurd hmod h0

theorem not_jpg_false {x : path} (h : x.extension = ".jpg") :
    (x.extension != ".jpg") = false := by
  simp [h]

theorem countFrames_concat (pre : List path) (x : path) (hx : x.extension = ".jpg") :
    countFrames (pre ++ [x]) = ((countFrames pre).1 + 1, x) := by
  simp [countFrames, List.foldl_append, hx]

theorem countFrames_fst (l : List path) (hjpg : ∀ x ∈ l, x.extension = ".jpg") :
    (countFrames l).1 = l.length := by
  induction l using List.reverseRecOn with
  | nil => simp [countFrames]
  | append_singleton pre x ih =>
    rw [countFrames_concat pre x (hjpg x (by simp)),
      ih (fun y hy => hjpg y (List.mem_append_left _ hy))]
    simp

theorem countFrames_snd (pre : List path) (x : path) (hx : x.extension = ".jpg") :
    (countFrames (pre ++ [x])).2 = x := by
  rw [countFrames_concat pre x hx]

theorem tasksFrom_all_jpg (env : Env) (bg : Image) (q : ℚ) (bl : Int) (n : Nat)
    (l : List path) (hjpg : ∀ x ∈ l, x.extension = ".jpg") :
    tasksFrom env bg q bl n l =
      (l.enumFrom n).map fun p => CreateForegroundMaskAsync env (p.1 : Int) p.2 bg q bl := by
  induction l generalizing n with
  | nil => rfl
  | cons x xs ih =>
    have hx := not_jpg_false (hjpg x (List.mem_cons_self _ _))
    simp [tasksFrom, hx, ih (n + 1) (fun y hy => hjpg y (List.mem_cons_of_mem _ hy)),
      List.enumFrom]

theorem tasksFrom_getElem? (env : Env) (bg : Image) (q : ℚ) (bl : Int)
    (l : List path) (hjpg : ∀ x ∈ l, x.extension = ".jpg") (i : Nat) :
    (tasksFrom env bg q bl 0 l)[i]? =
      l[i]?.map fun x => CreateForegroundMaskAsync env (i : Int) x bg q bl := by
  rw [tasksFrom_all_jpg env bg q bl 0 l hjpg, List.getElem?_map, List.getElem?_enumFrom]
  cases l[i]? <;> simp

theorem tasksFrom_length (env : Env) (bg : Image) (q : ℚ) (bl : Int)
    (l : List path) (hjpg : ∀ x ∈ l, x.extension = ".jpg") :
    (tasksFrom env bg q bl 0 l).length = l.length := by
  rw [tasksFrom_all_jpg env bg q bl 0 l hjpg]
  simp

/-- Chunk sizes while frames remain: after `n < N` entries of an all-`.jpg` listing, the
loop has drained `n / C` chunks of `C` results each and holds `n % C` pending tasks. -/
theorem frameLoop_chunk_sizes (env : Env) (out : String) (bg : Image) (q : ℚ) (bl : Int)
    (C N : Nat) (hC : 1 ≤ C) (pre : List path) (hjpg : ∀ x ∈ pre, x.extension = ".jpg")
    (hlt : pre.length < N) :
    (frameLoop env out bg q C bl N pre).chunks.map List.length =
        List.replicate (pre.length / C) C ∧
    (frameLoop env out bg q C bl N pre).foregroundImageTasks.length = pre.length % C := by
  induction pre using List.reverseRecOn with
  | nil => simp [frameLoop, initialState]
  | append_singleton pre x ih =>
    have hlen : (pre ++ [x]).length = pre.length + 1 := by simp
    rw [hlen] at hlt ⊢
    obtain ⟨ih1, ih2⟩ := ih (fun y hy => hjpg y (List.mem_append_left _ hy)) (by omega)
    have hfc := (frameLoop_tasks env out bg q C bl N pre).1
    have hx := not_jpg_false (hjpg x (by simp))
    rw [frameLoop_concat, loopBody_jpg _ _ _ _ _ _ _ _ _ hx, hfc]
    have htmod : Int.tmod ((pre.length : Int) + 1) (C : Int) = (((pre.length + 1) % C : Nat) : Int) := by
      rw [Int.ofNat_tmod]; rfl
    have hne : ¬ ((pre.length : Int) + 1 = (N : Int)) := by omega
    obtain ⟨hz, hnz⟩ := succ_div_mod pre.length C hC
    by_cases h0 : (pre.length + 1) % C = 0
    · have hcond : Int.tmod ((pre.length : Int) + 1) (C : Int) = 0 ∨
          (pre.length : Int) + 1 = (N : Int) := Or.inl (by rw [htmod, h0]; rfl)
      rw [if_pos hcond]
      obtain ⟨e1, e2⟩ := hz h0
      simp only [drain, List.map_append, ih1, List.map_cons, List.map_nil, List.length_append,
        List.length_singleton, ih2, e1, e2, List.length_nil, h0]
      exact ⟨(List.replicate_succ' _ _).symm, trivial⟩
    · have hcond : ¬ (Int.tmod ((pre.length : Int) + 1) (C : Int) = 0 ∨
          (pre.length : Int) + 1 = (N : Int)) := by
        rw [htmod]
        intro h
        rcases h with h | h
        · exact h0 (by exact_mod_cast h)
        · exact hne h
      rw [if_neg hcond]
      obtain ⟨e1, e2⟩ := hnz h0
      simp only [ih1, e2, List.length_append, List.length_singleton, ih2, e1, and_self]

/-- The last entry of an all-`.jpg` listing of `N` entries drains what is pending. -/
theorem frameLoop_final (env : Env) (out : String) (bg : Image) (q : ℚ) (C bl : Int)
    (pre : List path) (x : path) (hx : x.extension = ".jpg") :
    frameLoop env out bg q C bl ((pre.length : Int) + 1) (pre ++ [x]) =
      drain env out { frameLoop env out bg q C bl ((pre.length : Int) + 1) pre with
        fileCount := (pre.length : Int) + 1
        foregroundImageTasks :=
          (frameLoop env out bg q C bl ((pre.length : Int) + 1) pre).foregroundImageTasks ++
            [CreateForegroundMaskAsync env (pre.length : Int) x bg q bl]
        maxPending := max (frameLoop env out bg q C bl ((pre.length : Int) + 1) pre).maxPending
          ((frameLoop env out bg q C bl ((pre.length : Int) + 1)
            pre).foregroundImageTasks.length + 1) } := by
  have hfc := (frameLoop_tasks env out bg q C bl ((pre.length : Int) + 1) pre).1
  rw [frameLoop_concat, loopBody_jpg _ _ _ _ _ _ _ _ _ (not_jpg_false hx), hfc]
  rw [if_pos (Or.inr rfl)]

theorem chain_valid_zip {p : Image} (hp : p.isValid = true) {L : List (Int × path × Image)}
    (hL : ∀ r ∈ L, validT r = true) :
    chain p L = List.zip (p :: L.map fun r => r.2.2) L := by
  induction L generalizing p with
  | nil => rfl
  | cons r rs ih =>
    have hr : r.2.2.isValid = true := hL r (List.mem_cons_self _ _)
    simp [chain, hp, hr, ih hr (fun u hu => hL u (List.mem_cons_of_mem _ hu))]

theorem chain_none_zip {L : List (Int × path × Image)} (hL : ∀ r ∈ L, validT r = true) :
    chain ⟨none⟩ L = List.zip (L.map fun r => r.2.2) L.tail := by
  cases L with
  | nil => rfl
  | cons r rs =>
    have hr : r.2.2.isValid = true := hL r (List.mem_cons_self _ _)
    simp [chain, Image.isValid, chain_valid_zip hr (fun u hu => hL u (List.mem_cons_of_mem _ hu))]

theorem chain_none_length {L : List (Int × path × Image)} (hL : ∀ r ∈ L, validT r = true) :
    (chain ⟨none⟩ L).length = L.length - 1 := by
  rw [chain_none_zip hL]
  simp

theorem chain_none_getElem? {L : List (Int × path × Image)} (hL : ∀ r ∈ L, validT r = true)
    {i : Nat} {a b : Int × path × Image} (ha : L[i]? = some a) (hb : L[i + 1]? = some b) :
    (chain ⟨none⟩ L)[i]? = some (a.2.2, b) := by
  rw [chain_none_zip hL, List.getElem?_zip_eq_some]
  simp [ha, hb]

theorem saved_path {d : DeltaTask} (hw : d.writes = true) :
    d.saved.map Prod.fst = some d.outFilepath := by
  unfold DeltaTask.writes at hw
  obtain ⟨r, hr⟩ := Option.isSome_iff_exists.mp hw
  rw [hr]
  unfold DeltaTask.saved CreateAndSaveDeltaAsync at hr
  simp only [] at hr
  split_ifs at hr
  cases hr
  rfl

/-- The run of `main` on a non-empty all-`.jpg` listing whose last frame decodes: the
background is that frame, `numFiles` is the length of the listing, the last entry drains
the pending tasks, and the collected chunks hold the results of all frames in order. -/
theorem main_all_jpg (env : Env) (out : String) (t : ℚ) (C bl : Int) (pre : List path)
    (last : path) (hjpg : ∀ x ∈ pre ++ [last], x.extension = ".jpg") (bg : FIBITMAP)
    (hbg : env.load last = some bg) :
    backgroundOf env (pre ++ [last]) = ⟨some bg⟩ ∧
    main env (pre ++ [last]) out t C bl =
      some (frameLoop env out ⟨some bg⟩ (env.fmul t t) C bl ((pre.length : Int) + 1) (pre ++ [last])) ∧
    (frameLoop env out ⟨some bg⟩ (env.fmul t t) C bl ((pre.length : Int) + 1)
      (pre ++ [last])).foregroundImageTasks = [] ∧
    (frameLoop env out ⟨some bg⟩ (env.fmul t t) C bl ((pre.length : Int) + 1)
      (pre ++ [last])).chunks.flatten = tasksFrom env ⟨some bg⟩ (env.fmul t t) bl 0 (pre ++ [last]) := by
  have hlast : last.extension = ".jpg" := hjpg last (by simp)
  have hc2 : (countFrames (pre ++ [last])).2 = last := countFrames_snd pre last hlast
  have hc1 : (countFrames (pre ++ [last])).1 = (pre.length : Int) + 1 := by
    rw [countFrames_fst _ hjpg]; simp
  have hpend : (frameLoop env out ⟨some bg⟩ (env.fmul t t) C bl ((pre.length : Int) + 1)
      (pre ++ [last])).foregroundImageTasks = [] := by
    rw [frameLoop_final env out _ _ C bl pre last hlast]
    rfl
  refine ⟨by rw [backgroundOf, hc2, hbg], ?_, hpend, ?_⟩
  · rw [main_eq, hc2, hc1, hbg]
    rfl
  · have := (frameLoop_tasks env out ⟨some bg⟩ (env.fmul t t) C bl ((pre.length : Int) + 1)
      (pre ++ [last])).2
    rw [hpend, List.append_nil] at this
    exact this

/-- Chunk sizes at the end of an all-`.jpg` listing of `N` entries: `N / C` chunks of `C`
results, then one of `N % C` results when `C` does not divide `N`. -/
theorem final_chunk_sizes (env : Env) (out : String) (bg : Image) (q : ℚ) (bl : Int)
    (C : Nat) (hC : 1 ≤ C) (pre : List path) (last : path)
    (hjpg : ∀ x ∈ pre ++ [last], x.extension = ".jpg") :
    (frameLoop env out bg q C bl ((pre.length : Int) + 1)
      (pre ++ [last])).chunks.map List.length =
      List.replicate ((pre ++ [last]).length / C) C ++
        (if (pre ++ [last]).length % C = 0 then [] else [(pre ++ [last]).length % C]) := by
  have hpre := frameLoop_chunk_sizes env out bg q bl C (pre.length + 1) hC pre
    (fun y hy => hjpg y (List.mem_append_left _ hy)) (Nat.lt_succ_self _)
  have hcast : ((pre.length + 1 : Nat) : Int) = (pre.length : Int) + 1 := by push_cast; rfl
  rw [hcast] at hpre
  obtain ⟨h1, h2⟩ := hpre
  rw [frameLoop_final env out _ _ C bl pre last (hjpg last (by simp))]
  have hlen : (pre ++ [last]).length = pre.length + 1 := by simp
  rw [hlen]
  obtain ⟨hz, hnz⟩ := succ_div_mod pre.length C hC
  simp only [drain, List.map_append, h1, List.map_cons, List.map_nil, List.length_append,
    List.length_singleton, h2]
  by_cases h0 : (pre.length + 1) % C = 0
  · obtain ⟨e1, e2⟩ := hz h0
    rw [if_pos h0, e1, e2, List.append_nil]
    exact (List.replicate_succ' _ _).symm
  · obtain ⟨e1, e2⟩ := hnz h0
    rw [if_neg h0, e1, e2]

theorem ceil_div (N C : Nat) (hC : 0 < C) :
    (N + C - 1) / C = N / C + if N % C = 0 then 0 else 1 := by
  have hlt := Nat.mod_lt N hC
  have hsplit : N + C - 1 = (N % C + C - 1) + C * (N / C) := by
    have := Nat.div_add_mod N C
    omega
  rw [hsplit, Nat.add_mul_div_left _ _ hC]
  by_cases h : N % C = 0
  · rw [h, if_pos rfl, Nat.zero_add, Nat.div_eq_of_lt (by omega)]
    omega
  · rw [if_neg h]
    have : (N % C + C - 1) / C = 1 := by
      have e : N % C + C - 1 = (N % C - 1) + C * 1 := by omega
      rw [e, Nat.add_mul_div_left _ _ hC, Nat.div_eq_of_lt (by omega)]
    omega

theorem frameLoop_pending_bound (env : Env) (out : String) (bg : Image) (q : ℚ) (bl : Int)
    (C N : Nat) (hC : 1 ≤ C) (pre : List path) (hjpg : ∀ x ∈ pre, x.extension = ".jpg")
    (hlt : pre.length < N) :
    (frameLoop env out bg q C bl N pre).maxPending ≤ C := by
  induction pre using List.reverseRecOn with
  | nil => simp [frameLoop, initialState]
  | append_singleton pre x ih =>
    have hlen : (pre ++ [x]).length = pre.length + 1 := by simp
    rw [hlen] at hlt
    have hjpg' : ∀ y ∈ pre, y.extension = ".jpg" :=
      fun y hy => hjpg y (List.mem_append_left _ hy)
    have ih' := ih hjpg' (by omega)
    have hpend := (frameLoop_chunk_sizes env out bg q bl C N hC pre hjpg' (by omega)).2
    have hmod := Nat.mod_lt pre.length hC
    have hx := not_jpg_false (hjpg x (by simp))
    rw [frameLoop_concat, loopBody_jpg _ _ _ _ _ _ _ _ _ hx]
    split
    · simp only [drain, hpend]
      exact max_le ih' (by omega)
    · simp only [hpend]
      exact max_le ih' (by omega)

/-- On an all-`.jpg` listing the admission window holds: `foregroundImageTasks` never holds
more than `chunkSize` tasks. -/
theorem all_jpg_pending_bound (env : Env) (listing : List path) (out : String) (t : ℚ)
    (C : Nat) (hC : 1 ≤ C) (bl : Int) (hjpg : ∀ x ∈ listing, x.extension = ".jpg")
    (st : MainState) (hmain : main env listing out t C bl = some st) :
    st.maxPending ≤ C := by
  rw [main_eq] at hmain
  cases hbg : env.load (countFrames listing).2 with
  | none => simp [hbg] at hmain
  | some bg =>
    simp only [hbg, Option.map_some', Option.some.injEq] at hmain
    subst hmain
    rcases List.eq_nil_or_concat listing with h | ⟨pre, last, h⟩
    · subst h
      simp [frameLoop, initialState]
    · rw [List.concat_eq_append] at h
      subst h
      have hjpg' : ∀ y ∈ pre, y.extension = ".jpg" :=
        fun y hy => hjpg y (List.mem_append_left _ hy)
      have hc1 : (countFrames (pre ++ [last])).1 = (pre.length : Int) + 1 := by
        rw [countFrames_fst _ hjpg]; simp
      have hcast : ((pre.length + 1 : Nat) : Int) = (pre.length : Int) + 1 := by
        push_cast; rfl
      have hb := frameLoop_pending_bound env out ⟨some bg⟩ (env.fmul t t) bl C (pre.length + 1) hC
        pre hjpg' (Nat.lt_succ_self _)
      have hpend := (frameLoop_chunk_sizes env out ⟨some bg⟩ (env.fmul t t) bl C (pre.length + 1) hC
        pre hjpg' (Nat.lt_succ_self _)).2
      rw [hcast] at hb hpend
      have hmod := Nat.mod_lt pre.length hC
      rw [hc1, frameLoop_final env out _ _ C bl pre last (hjpg last (by simp))]
      simp only [drain, hpend]
      exact max_le hb (by omega)


/-- When every frame of a non-empty all-`.jpg` listing decodes, the written deltas pair each
result with the image of the result before it. -/
theorem main_all_decode {env : Env} (hsort : SortsByIndex env.sort) (out : String) (t : ℚ)
    (C bl : Int) (pre : List path) (last : path)
    (hjpg : ∀ x ∈ pre ++ [last], x.extension = ".jpg")
    (hdec : ∀ x ∈ pre ++ [last], (env.load x).isSome = true) (bg : FIBITMAP)
    (hbg : env.load last = some bg) :
    (∀ r ∈ tasksFrom env ⟨some bg⟩ (env.fmul t t) bl 0 (pre ++ [last]), validT r = true) ∧
    (written env (pre ++ [last]) out t C bl).map DeltaTask.link =
      chain ⟨none⟩ (tasksFrom env ⟨some bg⟩ (env.fmul t t) bl 0 (pre ++ [last])) ∧
    DeltaInv out (frameLoop env out ⟨some bg⟩ (env.fmul t t) C bl ((pre.length : Int) + 1)
      (pre ++ [last])) := by
  obtain ⟨-, hmain, -, hflat⟩ := main_all_jpg env out t C bl pre last hjpg bg hbg
  have hvalid : ∀ r ∈ tasksFrom env ⟨some bg⟩ (env.fmul t t) bl 0 (pre ++ [last]),
      validT r = true := by
    intro r hr
    obtain ⟨i, x, hi, -, hrx⟩ := tasksFrom_mem _ _ _ _ _ _ _ hr
    rw [validT, hrx, CFMA_valid]
    exact hdec x (List.getElem?_mem hi)
  have hinv := frameLoop_DeltaInv hsort out ⟨some bg⟩ (env.fmul t t) C bl
    ((pre.length : Int) + 1) (pre ++ [last]) hvalid
  refine ⟨hvalid, ?_, hinv⟩
  have h1 := hinv.1
  rw [hflat] at h1
  unfold written launched
  rw [hmain]
  exact h1

/-! ## Pixels -/

theorem nested_eq_flat {β : Type} (w h : Nat) (f : Nat → β) :
    ((List.range h).flatMap fun yi => (List.range w).map fun xi => f (yi * w + xi)) =
      (List.range (h * w)).map f := by
  induction h with
  | zero => simp
  | succ h ih =>
    rw [List.range_succ, List.flatMap_append, ih, Nat.succ_mul, List.range_add,
      List.map_append]
    simp [List.map_map, Function.comp]

theorem flat_index {w h xi yi : Nat} (hx : xi < w) (hy : yi < h) : yi * w + xi < h * w := by
  have : (yi + 1) * w ≤ h * w := Nat.mul_le_mul_right w hy
  rw [Nat.succ_mul] at this
  omega

theorem maskLoop_length (w h bpp : Nat) (A B : List BYTE) (q : ℚ) :
    (maskLoop w h bpp A B q).length = h * w := by
  unfold maskLoop
  rw [nested_eq_flat w h (fun k => maskByte A B (bpp * k) q)]
  simp

theorem maskLoop_getElem? (w h bpp : Nat) (A B : List BYTE) (q : ℚ) {xi yi : Nat}
    (hx : xi < w) (hy : yi < h) :
    (maskLoop w h bpp A B q)[yi * w + xi]? = some (maskByte A B (bpp * (yi * w + xi)) q) := by
  unfold maskLoop
  rw [nested_eq_flat w h (fun k => maskByte A B (bpp * k) q)]
  simp [flat_index hx hy]

theorem deltaLoop_length (w h : Nat) (A B : List BYTE) : (deltaLoop w h A B).length = h * w := by
  unfold deltaLoop
  rw [nested_eq_flat w h (fun k => deltaByte (A.getD k 0) (B.getD k 0))]
  simp

theorem deltaLoop_getElem? (w h : Nat) (A B : List BYTE) {xi yi : Nat}
    (hx : xi < w) (hy : yi < h) :
    (deltaLoop w h A B)[yi * w + xi]? =
      some (deltaByte (A.getD (yi * w + xi) 0) (B.getD (yi * w + xi) 0)) := by
  unfold deltaLoop
  rw [nested_eq_flat w h (fun k => deltaByte (A.getD k 0) (B.getD k 0))]
  simp [flat_index hx hy]

theorem deltaByte_val (a b : BYTE) :
    ((deltaByte a b).val : Int) = min 255 (2 * |(a.val : Int) - (b.val : Int)|) := by
  have ha := a.isLt
  have hb := b.isLt
  unfold deltaByte toBYTE
  simp only []
  have h1 : Int.natAbs ((a.val : Int) - (b.val : Int)) % 256 =
      Int.natAbs ((a.val : Int) - (b.val : Int)) := Nat.mod_eq_of_lt (by omega)
  rw [h1]
  have h2 : min 255 (2 * Int.natAbs ((a.val : Int) - (b.val : Int))) % 256 =
      min 255 (2 * Int.natAbs ((a.val : Int) - (b.val : Int))) := Nat.mod_eq_of_lt (by omega)
  rw [h2]
  rw [← Int.natCast_natAbs]
  push_cast
  rfl

theorem blur_zero (env : Env) (w h : Nat) (img : Image) : blur env 0 w h img = img := rfl

theorem maskByte_self (A : List BYTE) (off : Nat) {q : ℚ} (hq : 0 ≤ q) :
    maskByte A A off q = 0 := by
  unfold maskByte
  simp only [sub_self, mul_zero, add_zero, Int.cast_zero]
  rw [if_neg (not_lt.mpr hq)]

theorem maskLoop_self (w h bpp : Nat) (A : List BYTE) {q : ℚ} (hq : 0 ≤ q) :
    ∀ b ∈ maskLoop w h bpp A A q, b = 0 := by
  intro b hb
  unfold maskLoop at hb
  rw [nested_eq_flat w h (fun k => maskByte A A (bpp * k) q)] at hb
  obtain ⟨k, -, hk⟩ := List.mem_map.mp hb
  rw [← hk]
  exact maskByte_self A _ hq


theorem pitch8_ge (w : Nat) : w ≤ CalculatePitch (CalculateLine w 8) := by
  unfold CalculatePitch CalculateLine
  omega

theorem store_alloc_bits {w h : Nat} (hw : 0 < w) (hh : 0 < h) (dst : List BYTE)
    (hlen : dst.length = h * w) :
    ∃ m : FIBITMAP, (Image.alloc w h 8).store dst = ⟨some m⟩ ∧ m.width = w ∧ m.height = h ∧
      m.bpp = 8 ∧
      m.bits = dst ++ List.replicate (CalculatePitch (CalculateLine w 8) * h - h * w) 0 ∧
      m.bits.length = FreeImage_GetPitch m * m.height := by
  have h8 : 0 < w ∧ 0 < h ∧ 0 < 8 := ⟨hw, hh, by decide⟩
  have hle : h * w ≤ CalculatePitch (CalculateLine w 8) * h := by
    rw [Nat.mul_comm h w]
    exact Nat.mul_le_mul_right h (pitch8_ge w)
  refine ⟨⟨w, h, 8, dst ++ List.replicate (CalculatePitch (CalculateLine w 8) * h - h * w) 0,
    hw, hh⟩, ?_, rfl, rfl, rfl, rfl, ?_⟩
  · simp [Image.alloc, h8, Image.store, hlen]
  · simp only [List.length_append, List.length_replicate, hlen, FreeImage_GetPitch]
    omega

/-- The mask `CreateForegroundMaskAsync` builds from a decoded frame when no blur is asked
for: the bytes stored by the loop, followed by the bytes the loop has not reached, which
are zero. -/
theorem CFMA_blur_zero {env : Env} {x : path} {fg : FIBITMAP} (hload : env.load x = some fg)
    (index : Int) (imgBG : Image) (q : ℚ) :
    ∃ m : FIBITMAP, CreateForegroundMaskAsync env index x imgBG q 0 = (index, x, ⟨some m⟩) ∧
      m.width = fg.width ∧ m.height = fg.height ∧ m.bpp = 8 ∧
      m.bits = maskLoop fg.width fg.height (fg.bpp / 8) fg.bits imgBG.accessPixels q ++
        List.replicate
          (CalculatePitch (CalculateLine fg.width 8) * fg.height - fg.height * fg.width) 0 ∧
      m.bits.length = FreeImage_GetPitch m * m.height := by
  obtain ⟨m, hm, h1, h2, h3, h4, h5⟩ := store_alloc_bits fg.width_pos fg.height_pos
    (maskLoop fg.width fg.height (fg.bpp / 8) fg.bits imgBG.accessPixels q)
    (maskLoop_length _ _ _ _ _ _)
  refine ⟨m, ?_, h1, h2, h3, h4, h5⟩
  simp only [CreateForegroundMaskAsync, hload, blur_zero, hm]

theorem pixelAt_of_zero (m : FIBITMAP) (hb : m.bpp = 8)
    (hlen : m.bits.length = FreeImage_GetPitch m * m.height) (hzero : ∀ b ∈ m.bits, b = 0)
    {xi yi : Nat} (hx : xi < m.width) (hy : yi < m.height) : m.pixelAt xi yi = [0] := by
  have hp : m.width ≤ FreeImage_GetPitch m := by
    rw [FreeImage_GetPitch, hb]; exact pitch8_ge m.width
  have hlt : yi * FreeImage_GetPitch m + xi * (m.bpp / 8) < m.bits.length := by
    rw [hlen, hb]
    have h1 : (yi + 1) * FreeImage_GetPitch m ≤ m.height * FreeImage_GetPitch m :=
      Nat.mul_le_mul_right _ hy
    rw [Nat.succ_mul] at h1
    rw [Nat.mul_comm (FreeImage_GetPitch m) m.height]
    omega
  unfold FIBITMAP.pixelAt
  rw [List.drop_eq_getElem_cons hlt, hzero _ (List.getElem_mem hlt), hb]
  simp

/-! ## Bitmaps whose scanlines need no padding -/

theorem pitch_of_aligned (w bpp : Nat) (h4 : w % 4 = 0) (h8 : bpp % 8 = 0) :
    CalculatePitch (CalculateLine w bpp) = w * (bpp / 8) := by
  obtain ⟨w', hw⟩ : ∃ w', w = 4 * w' := ⟨w / 4, by omega⟩
  obtain ⟨b, hb⟩ : ∃ b, bpp = 8 * b := ⟨bpp / 8, by omega⟩
  have hb8 : bpp / 8 = b := by omega
  have e1 : w * bpp = 32 * (w' * b) := by rw [hw, hb]; ring
  have e2 : w * b = 4 * (w' * b) := by rw [hw]; ring
  unfold CalculatePitch CalculateLine
  rw [hb8, e1, e2]
  omega

theorem pixelAt_getD (d : FIBITMAP) (hp : FreeImage_GetPitch d = d.width * (d.bpp / 8))
    (xi yi c : Nat) (hc : c < d.bpp / 8) :
    (d.pixelAt xi yi).getD c 0 = d.bits.getD (d.bpp / 8 * (yi * d.width + xi) + c) 0 := by
  unfold FIBITMAP.pixelAt
  have e : yi * (d.width * (d.bpp / 8)) + xi * (d.bpp / 8) =
      d.bpp / 8 * (yi * d.width + xi) := by ring
  simp only [List.getD_eq_getElem?_getD, List.getElem?_take, hc, if_true, List.getElem?_drop,
    hp, e]

theorem pixelAt_single (d : FIBITMAP) (hb : d.bpp = 8) (hp : FreeImage_GetPitch d = d.width)
    {xi yi : Nat} {v : BYTE} (hv : d.bits[yi * d.width + xi]? = some v) :
    d.pixelAt xi yi = [v] := by
  unfold FIBITMAP.pixelAt
  rw [hb, hp]
  simp only [Nat.reduceDiv, Nat.mul_one]
  obtain ⟨hlt, hget⟩ := List.getElem?_eq_some_iff.mp hv
  rw [List.drop_eq_getElem_cons hlt, hget]
  simp

theorem maskByte_eq_sqDist (fg bg : FIBITMAP) (hw : bg.width = fg.width) (hb : bg.bpp = fg.bpp)
    (hp : FreeImage_GetPitch fg = fg.width * (fg.bpp / 8))
    (h3 : 3 ≤ fg.bpp / 8) (xi yi : Nat) (q : ℚ) :
    maskByte fg.bits bg.bits (fg.bpp / 8 * (yi * fg.width + xi)) q =
      if ((sqDist fg bg xi yi : Int) : ℚ) > q then 255 else 0 := by
  have h3' : 3 ≤ bg.bpp / 8 := by rw [hb]; exact h3
  have hp' : FreeImage_GetPitch bg = bg.width * (bg.bpp / 8) := by
    rw [FreeImage_GetPitch, hw, hb]; exact hp
  unfold maskByte sqDist FIBITMAP.channel
  rw [pixelAt_getD fg hp xi yi 0 (by omega), pixelAt_getD fg hp xi yi 1 (by omega),
    pixelAt_getD fg hp xi yi 2 (by omega), pixelAt_getD bg hp' xi yi 0 (by omega),
    pixelAt_getD bg hp' xi yi 1 (by omega), pixelAt_getD bg hp' xi yi 2 (by omega), hb, hw]
  simp only [pow_two]

/-- Where the per-pixel statement of the mask holds: with `blurIterations = 0`, a decoded
foreground `fg` whose width is a multiple of 4 and whose depth is a whole number of bytes,
at least 3, and a background `bg` of the same width, height and depth, the mask pixel at
`(xi, yi)` is 255 when the squared colour distance of the two pixels is greater than
`bgThreshSq` and 0 otherwise. -/
theorem mask_threshold_unpadded (env : Env) (index : Int) (x : path) (fg bg : FIBITMAP)
    (bgThreshSq : ℚ) (hload : env.load x = some fg) (hw : bg.width = fg.width)
    (_hh : bg.height = fg.height) (hb : bg.bpp = fg.bpp) (h3 : 3 ≤ fg.bpp / 8)
    (h4 : fg.width % 4 = 0) (h8 : fg.bpp % 8 = 0) :
    ∃ m : FIBITMAP,
      CreateForegroundMaskAsync env index x ⟨some bg⟩ bgThreshSq 0 = (index, x, ⟨some m⟩) ∧
      m.width = fg.width ∧ m.height = fg.height ∧ m.bpp = 8 ∧
      ∀ xi yi, xi < fg.width → yi < fg.height →
        m.pixelAt xi yi =
          [if ((sqDist fg bg xi yi : Int) : ℚ) > bgThreshSq then 255 else 0] := by
  obtain ⟨m, hm, h1, h2, hbpp, hbits, -⟩ := CFMA_blur_zero hload index ⟨some bg⟩ bgThreshSq
  refine ⟨m, hm, h1, h2, hbpp, ?_⟩
  intro xi yi hx hy
  have hpm : FreeImage_GetPitch m = m.width := by
    rw [FreeImage_GetPitch, hbpp, h1, pitch_of_aligned _ _ h4 (by decide)]
    simp
  have hpf : FreeImage_GetPitch fg = fg.width * (fg.bpp / 8) := pitch_of_aligned _ _ h4 h8
  apply pixelAt_single m hbpp hpm
  rw [hbits, h1, List.getElem?_append_left (by rw [maskLoop_length]; exact flat_index hx hy),
    maskLoop_getElem? _ _ _ _ _ _ hx hy]
  simp only [Image.accessPixels]
  rw [maskByte_eq_sqDist fg bg hw hb hpf h3]

/-- Where the per-pixel statement of the delta holds: for valid 8-bit images `A` and `B`
of the same width, a multiple of 4, and the same height, the saved image has at `(xi, yi)`
the byte `min(255, 2 * |a - b|)`, computed over the integers from the pixels `a` and `b` of
`A` and `B` there. -/
theorem delta_clamp_unpadded (index : Int) (outFilepath : path) (A B : FIBITMAP)
    (hw : B.width = A.width) (_hh : B.height = A.height) (hA : A.bpp = 8) (hB : B.bpp = 8)
    (h4 : A.width % 4 = 0) :
    ∃ dd : FIBITMAP,
      CreateAndSaveDeltaAsync index outFilepath ⟨some A⟩ ⟨some B⟩ =
        some (outFilepath, ⟨some dd⟩) ∧
      dd.width = A.width ∧ dd.height = A.height ∧ dd.bpp = 8 ∧
      ∀ xi yi, xi < A.width → yi < A.height →
        ∃ v : BYTE, dd.pixelAt xi yi = [v] ∧
          (v.val : Int) = min 255 (2 * |A.channel xi yi 0 - B.channel xi yi 0|) := by
  obtain ⟨dd, hdd, h1, h2, hbpp, hbits, -⟩ := store_alloc_bits A.width_pos A.height_pos
    (deltaLoop A.width A.height A.bits B.bits) (deltaLoop_length _ _ _ _)
  have hpA : FreeImage_GetPitch A = A.width * (A.bpp / 8) := by
    rw [FreeImage_GetPitch, pitch_of_aligned _ _ h4 (by rw [hA])]
  have hpB : FreeImage_GetPitch B = B.width * (B.bpp / 8) := by
    rw [FreeImage_GetPitch, pitch_of_aligned _ _ (by rw [hw]; exact h4) (by rw [hB])]
  have hpd : FreeImage_GetPitch dd = dd.width := by
    rw [FreeImage_GetPitch, hbpp, h1, pitch_of_aligned _ _ h4 (by decide)]
    simp
  refine ⟨dd, ?_, h1, h2, hbpp, ?_⟩
  · simp [CreateAndSaveDeltaAsync, Image.isValid, Image.getWidth, Image.getHeight,
      Image.accessPixels, hdd]
  · intro xi yi hx hy
    refine ⟨deltaByte (A.bits.getD (yi * A.width + xi) 0) (B.bits.getD (yi * A.width + xi) 0),
      ?_, ?_⟩
    · apply pixelAt_single dd hbpp hpd
      rw [hbits, h1,
        List.getElem?_append_left (by rw [deltaLoop_length]; exact flat_index hx hy),
        deltaLoop_getElem? _ _ _ _ hx hy]
    · have hAc : A.channel xi yi 0 = ((A.bits.getD (yi * A.width + xi) 0).val : Int) := by
        unfold FIBITMAP.channel
        rw [pixelAt_getD A hpA xi yi 0 (by rw [hA]; decide), hA]
        simp
      have hBc : B.channel xi yi 0 = ((B.bits.getD (yi * A.width + xi) 0).val : Int) := by
        unfold FIBITMAP.channel
        rw [pixelAt_getD B hpB xi yi 0 (by rw [hB]; decide), hB, hw]
        simp
      rw [hAc, hBc]
      exact deltaByte_val _ _

/-! ## The insertion sort of the examples -/

theorem relocated_self (l : List (Int × path × Image)) (t : Int × path × Image) :
    Relocated l t t := by
  refine ⟨rfl, rfl, fun _ => rfl, fun h => Or.inl (Image.eq_none_of_not_valid h)⟩

theorem relocated_image {l : List (Int × path × Image)} {o s : Int × path × Image}
    (ho : o ∈ l) (h : Relocated l o s) :
    s.2.2 = ⟨none⟩ ∨ ∃ u ∈ l, u.2.2.isValid = true ∧ s.2.2 = u.2.2 := by
  obtain ⟨-, -, h3, h4⟩ := h
  cases hv : o.2.2.isValid with
  | true => exact Or.inr ⟨o, ho, hv, h3 hv⟩
  | false => exact h4 hv

theorem relocated_assign {l : List (Int × path × Image)} {o s hole : Int × path × Image}
    (hok : hole.2.2 = ⟨none⟩ ∨ ∃ u ∈ l, u.2.2.isValid = true ∧ hole.2.2 = u.2.2)
    (h : Relocated l o s) : Relocated l o (assignTuple hole s) := by
  obtain ⟨h1, h2, h3, h4⟩ := h
  refine ⟨h1, h2, ?_, ?_⟩
  · intro hv
    have hs : s.2.2.isValid = true := by rw [h3 hv]; exact hv
    show hole.2.2.assign s.2.2 = o.2.2
    rw [Image.assign_valid _ hs, h3 hv]
  · intro hv
    show hole.2.2.assign s.2.2 = ⟨none⟩ ∨ ∃ u ∈ l, u.2.2.isValid = true ∧
      hole.2.2.assign s.2.2 = u.2.2
    rcases h4 hv with h | ⟨u, hu, huv, hsu⟩
    · rw [h, Image.assign_none]
      exact hok
    · have hs : s.2.2.isValid = true := by rw [hsu]; exact huv
      rw [Image.assign_valid _ hs]
      exact Or.inr ⟨u, hu, huv, hsu⟩

theorem insertVal_spec (l : List (Int × path × Image)) (x : Int × path × Image)
    {ro rs : List (Int × path × Image)} (hrel : List.Forall₂ (Relocated l) ro rs)
    (hmem : ∀ o ∈ ro, o ∈ l) (hdesc : ro.Pairwise (fun a b => ¬ a.1 < b.1))
    (hole : Int × path × Image)
    (hok : hole.2.2 = ⟨none⟩ ∨ ∃ u ∈ l, u.2.2.isValid = true ∧ hole.2.2 = u.2.2) :
    ∃ ro', ro'.Perm (x :: ro) ∧ ro'.Pairwise (fun a b => ¬ a.1 < b.1) ∧
      List.Forall₂ (Relocated l) ro' (insertVal x rs hole) := by
  induction hrel generalizing hole with
  | nil =>
    exact ⟨[x], List.Perm.refl _, List.pairwise_singleton _ _,
      List.Forall₂.cons (relocated_assign hok (relocated_self l x)) List.Forall₂.nil⟩
  | @cons o s ro rs hos hrest ih =>
    have hdesc' := List.pairwise_cons.mp hdesc
    have ho : o ∈ l := hmem o (List.mem_cons_self _ _)
    simp only [insertVal]
    by_cases hlt : x.1 < s.1
    · rw [if_pos hlt]
      obtain ⟨r', hperm, hsorted, hfa⟩ :=
        ih (fun u hu => hmem u (List.mem_cons_of_mem _ hu)) hdesc'.2 s (relocated_image ho hos)
      refine ⟨o :: r', ?_, ?_, List.Forall₂.cons (relocated_assign hok hos) hfa⟩
      · exact (List.Perm.cons o hperm).trans (List.Perm.swap x o ro)
      · refine List.pairwise_cons.mpr ⟨?_, hsorted⟩
        intro b hb
        rcases List.mem_cons.mp (hperm.mem_iff.mp hb) with h | h
        · rw [h, ← hos.1]
          exact not_lt.mpr (le_of_lt hlt)
        · exact hdesc'.1 b h
    · rw [if_neg hlt]
      refine ⟨x :: o :: ro, List.Perm.refl _, ?_,
        List.Forall₂.cons (relocated_assign hok (relocated_self l x))
          (List.Forall₂.cons hos hrest)⟩
      refine List.pairwise_cons.mpr ⟨?_, hdesc⟩
      intro b hb
      rw [hos.1] at hlt
      rcases List.mem_cons.mp hb with h | h
      · rw [h]; exact hlt
      · have := hdesc'.1 b h
        omega

theorem insertionSort_places (l pre : List (Int × path × Image)) (hpre : ∀ x ∈ pre, x ∈ l) :
    ∃ ro, ro.Perm pre ∧ ro.Pairwise (fun a b => ¬ a.1 < b.1) ∧
      List.Forall₂ (Relocated l) ro (pre.foldl (fun places x => insertVal x places x) []) := by
  induction pre using List.reverseRecOn with
  | nil => exact ⟨[], List.Perm.refl _, List.Pairwise.nil, List.Forall₂.nil⟩
  | append_singleton pre x ih =>
    obtain ⟨ro, hperm, hdesc, hrel⟩ := ih (fun y hy => hpre y (List.mem_append_left _ hy))
    have hx : x ∈ l := hpre x (by simp)
    obtain ⟨ro', hperm', hdesc', hrel'⟩ := insertVal_spec l x hrel
      (fun o ho => hpre o (List.mem_append_left _ (hperm.mem_iff.mp ho))) hdesc x
      (relocated_image hx (relocated_self l x))
    refine ⟨ro', ?_, hdesc', ?_⟩
    · refine hperm'.trans ?_
      refine (List.Perm.cons x hperm).trans ?_
      exact (List.perm_append_singleton x pre).symm
    · simpa [List.foldl_append] using hrel'

/-- The insertion sort meets `SortsByIndex`. -/
theorem insertionSortUnchecked_sorts : SortsByIndex insertionSortUnchecked := by
  intro l
  obtain ⟨ro, hperm, hdesc, hrel⟩ := insertionSort_places l l (fun x hx => hx)
  refine ⟨ro.reverse, (List.reverse_perm ro).trans hperm, ?_, ?_⟩
  · rw [List.pairwise_reverse]
    exact hdesc
  · unfold insertionSortUnchecked
    exact List.forall₂_reverse_iff.mpr hrel

/-! ## The claims -/

/-- C1: for every chunk size `C ≥ 1` and every all-`.jpg` listing of `N ≥ 1` frames that all
decode, `main` runs to the end and the delta tasks that write an image are `N - 1` in
number; the `i`-th of them (from 0) was launched for frame `i + 1`, takes the mask of frame
`i` as first image and the mask of frame `i + 1` as second image, whether or not the two
frames lie in the same chunk, and saves to the output folder under the file name of frame
`i + 1`. No delta is written for frame 0. -/
theorem deltas_pair_adjacent_frames (env : Env) (hsort : SortsByIndex env.sort)
    (listing : List path) (out : String) (t : ℚ) (C : Int) (_hC : 1 ≤ C) (bl : Int)
    (hne : listing ≠ []) (hjpg : ∀ x ∈ listing, x.extension = ".jpg")
    (hdec : ∀ x ∈ listing, (env.load x).isSome = true) :
    (main env listing out t C bl).isSome = true ∧
    (written env listing out t C bl).length = listing.length - 1 ∧
    ∀ (i : Nat) (x0 x1 : path), listing[i]? = some x0 → listing[i + 1]? = some x1 →
      ∃ d, (written env listing out t C bl)[i]? = some d ∧
        d.source = frameTask env listing t bl (i + 1) x1 ∧
        d.source.1 = ((i + 1 : Nat) : Int) ∧
        d.imgA = (frameTask env listing t bl i x0).2.2 ∧
        d.imgB = (frameTask env listing t bl (i + 1) x1).2.2 ∧
        d.saved.map Prod.fst = some ⟨out, x1.filename, x1.extension⟩ := by
  rcases List.eq_nil_or_concat listing with h | ⟨pre, last, h⟩
  · exact absurd h hne
  rw [List.concat_eq_append] at h
  subst h
  obtain ⟨bg, hbg⟩ := Option.isSome_iff_exists.mp (hdec last (by simp))
  obtain ⟨hback, hmain, -, -⟩ := main_all_jpg env out t C bl pre last hjpg bg hbg
  obtain ⟨hvalid, hlinks, hinv⟩ := main_all_decode hsort out t C bl pre last hjpg hdec bg hbg
  refine ⟨by rw [hmain]; rfl, ?_, ?_⟩
  · have := congrArg List.length hlinks
    rw [List.length_map, chain_none_length hvalid, tasksFrom_length _ _ _ _ _ hjpg] at this
    exact this
  · intro i x0 x1 h0 h1
    have hT0 := tasksFrom_getElem? env ⟨some bg⟩ (env.fmul t t) bl (pre ++ [last]) hjpg i
    have hT1 := tasksFrom_getElem? env ⟨some bg⟩ (env.fmul t t) bl (pre ++ [last]) hjpg (i + 1)
    rw [h0] at hT0
    rw [h1] at hT1
    have hc := chain_none_getElem? hvalid hT0 hT1
    rw [← hlinks, List.getElem?_map] at hc
    cases hd : (written env (pre ++ [last]) out t C bl)[i]? with
    | none => rw [hd] at hc; simp at hc
    | some d =>
      rw [hd] at hc
      simp only [Option.map_some', Option.some.injEq, DeltaTask.link, Prod.mk.injEq] at hc
      obtain ⟨hA, hsrc⟩ := hc
      have hmem : d ∈ written env (pre ++ [last]) out t C bl := List.getElem?_mem hd
      have hmem' := hmem
      unfold written launched at hmem'
      rw [hmain] at hmem'
      obtain ⟨hd1, hd2⟩ := List.mem_filter.mp hmem'
      obtain ⟨-, hB, hout⟩ := hinv.2.2 d hd1
      obtain ⟨x1img, hx1⟩ := Option.isSome_iff_exists.mp (hdec x1 (List.getElem?_mem h1))
      obtain ⟨e1, e2, -⟩ := CFMA_some hx1 ((i + 1 : Nat) : Int) ⟨some bg⟩ (env.fmul t t) bl
      have hsrc' : d.source = frameTask env (pre ++ [last]) t bl (i + 1) x1 := by
        rw [hsrc, frameTask, hback]
      have hpath : d.source.2.1 = x1 := by rw [hsrc]; exact e2
      refine ⟨d, rfl, hsrc', by rw [hsrc]; exact e1, ?_, by rw [hB, hsrc'], ?_⟩
      · rw [hA, frameTask, hback]
      · rw [saved_path hd2, hout, outPath, hpath]

/-- Witness for C1: five decodable frames, the second one light, chunk size 2. -/
theorem deltas_pair_adjacent_frames_witness :
    SortsByIndex (demoEnv [] ["f1.jpg"]).sort ∧ (1 : Int) ≤ 2 ∧ five ≠ [] ∧
    (∀ x ∈ five, x.extension = ".jpg") ∧
    (∀ x ∈ five, ((demoEnv [] ["f1.jpg"]).load x).isSome = true) ∧
    ((main (demoEnv [] ["f1.jpg"]) five "out" 48 2 0).isSome = true ∧
    (written (demoEnv [] ["f1.jpg"]) five "out" 48 2 0).length = five.length - 1 ∧
    ∀ (i : Nat) (x0 x1 : path), five[i]? = some x0 → five[i + 1]? = some x1 →
      ∃ d, (written (demoEnv [] ["f1.jpg"]) five "out" 48 2 0)[i]? = some d ∧
        d.source = frameTask (demoEnv [] ["f1.jpg"]) five 48 0 (i + 1) x1 ∧
        d.source.1 = ((i + 1 : Nat) : Int) ∧
        d.imgA = (frameTask (demoEnv [] ["f1.jpg"]) five 48 0 i x0).2.2 ∧
        d.imgB = (frameTask (demoEnv [] ["f1.jpg"]) five 48 0 (i + 1) x1).2.2 ∧
        d.saved.map Prod.fst = some ⟨"out", x1.filename, x1.extension⟩) :=
  ⟨insertionSortUnchecked_sorts, by decide, by decide, by decide, by decide,
    deltas_pair_adjacent_frames (demoEnv [] ["f1.jpg"]) insertionSortUnchecked_sorts five "out" 48 2 (by decide) 0
      (by decide) (by decide) (by decide)⟩

/-- C2, the code at a failing input: with the entries `a.jpg`, `b.txt`, `c.jpg` and the
default chunk size 128, `numFiles` is 2 while `fileCount` reaches 1 and 3 at the two frames,
so neither drain condition ever holds: `main` ends with both masking tasks still pending,
no chunk collected, no delta task launched and no delta written, where one delta (for
`c.jpg`) is due. -/
theorem skipped_entry_leaves_frames_pending :
    countFrames [jpg "a.jpg", txt "b.txt", jpg "c.jpg"] = (2, jpg "c.jpg") ∧
    (main (demoEnv [] []) [jpg "a.jpg", txt "b.txt", jpg "c.jpg"] "out" 48 128 3).map
        (fun st => (st.fileCount, st.foregroundImageTasks.length, st.chunks.length,
          st.deltaImageTasks.length)) = some (3, 2, 0, 0) ∧
    (written (demoEnv [] []) [jpg "a.jpg", txt "b.txt", jpg "c.jpg"] "out" 48 128 3).length = 0 := by
  decide

/-- C3, the code at a failing input: five frames, frame 3 corrupt, frame 2 light, chunk
size 2. The chunk of frames 2 and 3 is collected as `(2, f2, mask 2), (-1, f3, null)`; the
sort exchanges the two, and since assigning a null image replaces nothing the failed result
arrives in front as `(-1, f3, mask 2)`. A delta is then written for the failed frame 3,
from masks 1 and 2, and the delta of frame 2 is computed from mask 2 and mask 2 instead of
masks 1 and 2. With frame 2 corrupt instead, the failed result is first in its chunk,
nothing moves, and the deltas are those the claim states: none for frame 2, frame 3 from
masks 1 and 3. -/
theorem sorted_failed_frame_gets_delta :
    (five.map fun x => ((demoEnv ["f3.jpg"] ["f2.jpg"]).load x).isSome) =
      [true, true, true, false, true] ∧
    collected (demoEnv ["f3.jpg"] ["f2.jpg"]) five "out" 48 2 0 =
      [[(0, jpg "f0.jpg", maskOfFive (demoEnv ["f3.jpg"] ["f2.jpg"]) 0),
        (1, jpg "f1.jpg", maskOfFive (demoEnv ["f3.jpg"] ["f2.jpg"]) 1)],
       [(2, jpg "f2.jpg", maskOfFive (demoEnv ["f3.jpg"] ["f2.jpg"]) 2),
        (-1, jpg "f3.jpg", ⟨none⟩)],
       [(4, jpg "f4.jpg", maskOfFive (demoEnv ["f3.jpg"] ["f2.jpg"]) 4)]] ∧
    (demoEnv ["f3.jpg"] ["f2.jpg"]).sort
        [(2, jpg "f2.jpg", maskOfFive (demoEnv ["f3.jpg"] ["f2.jpg"]) 2),
          (-1, jpg "f3.jpg", ⟨none⟩)] =
      [(-1, jpg "f3.jpg", maskOfFive (demoEnv ["f3.jpg"] ["f2.jpg"]) 2),
        (2, jpg "f2.jpg", maskOfFive (demoEnv ["f3.jpg"] ["f2.jpg"]) 2)] ∧
    ((written (demoEnv ["f3.jpg"] ["f2.jpg"]) five "out" 48 2 0).map fun d =>
        (d.outFilepath.filename, d.imgA, d.imgB)) =
      [("f1.jpg", maskOfFive (demoEnv ["f3.jpg"] ["f2.jpg"]) 0,
          maskOfFive (demoEnv ["f3.jpg"] ["f2.jpg"]) 1),
        ("f3.jpg", maskOfFive (demoEnv ["f3.jpg"] ["f2.jpg"]) 1,
          maskOfFive (demoEnv ["f3.jpg"] ["f2.jpg"]) 2),
        ("f2.jpg", maskOfFive (demoEnv ["f3.jpg"] ["f2.jpg"]) 2,
          maskOfFive (demoEnv ["f3.jpg"] ["f2.jpg"]) 2),
        ("f4.jpg", maskOfFive (demoEnv ["f3.jpg"] ["f2.jpg"]) 2,
          maskOfFive (demoEnv ["f3.jpg"] ["f2.jpg"]) 4)] ∧
    maskOfFive (demoEnv ["f3.jpg"] ["f2.jpg"]) 1 ≠ maskOfFive (demoEnv ["f3.jpg"] ["f2.jpg"]) 2 ∧
    ((written (demoEnv ["f2.jpg"] ["f1.jpg"]) five "out" 48 2 0).map fun d =>
        (d.outFilepath.filename, d.imgA, d.imgB)) =
      [("f1.jpg", maskOfFive (demoEnv ["f2.jpg"] ["f1.jpg"]) 0,
          maskOfFive (demoEnv ["f2.jpg"] ["f1.jpg"]) 1),
        ("f3.jpg", maskOfFive (demoEnv ["f2.jpg"] ["f1.jpg"]) 1,
          maskOfFive (demoEnv ["f2.jpg"] ["f1.jpg"]) 3),
        ("f4.jpg", maskOfFive (demoEnv ["f2.jpg"] ["f1.jpg"]) 3,
          maskOfFive (demoEnv ["f2.jpg"] ["f1.jpg"]) 4)] := by
  decide

/-- C4, the code at a failing input: five frames, frame 3 corrupt, chunk size 2. The delta
files are written in the order `f1.jpg`, `f3.jpg`, `f2.jpg`, `f4.jpg`, that is for the
enumeration positions 1, 3, 2, 4: the task launched for the failed result (index `-1`,
moved in front of frame 2 by the sort and carrying the bitmap frame 2 left behind) writes
`f3.jpg` before the task of frame 2 writes `f2.jpg`. -/
theorem failed_frame_written_before_earlier_frame :
    (five.map fun x => ((demoEnv ["f3.jpg"] ["f2.jpg"]).load x).isSome) =
      [true, true, true, false, true] ∧
    ((written (demoEnv ["f3.jpg"] ["f2.jpg"]) five "out" 48 2 0).map fun d =>
        (d.outFilepath.filename, d.source.1, d.saved.map fun r => r.1.filename)) =
      [("f1.jpg", 1, some "f1.jpg"), ("f3.jpg", -1, some "f3.jpg"),
        ("f2.jpg", 2, some "f2.jpg"), ("f4.jpg", 4, some "f4.jpg")] ∧
    ((written (demoEnv ["f3.jpg"] ["f2.jpg"]) five "out" 48 2 0).map fun d =>
        five.indexOf d.source.2.1) = [1, 3, 2, 4] := by
  decide

/-- C5, the code at a failing input: a 24-bit frame of 2 by 2 pixels (scanlines of 6 bytes
padded to 8) that differs from the background in the pixel `(0, 1)` only, by a squared
distance of 112908, with `bgThreshSq = 48 * 48 = 2304` and no blur. The loop walks the
bytes without the padding, so its third and fourth iterations read across the padding of
scanline 0 and store 255 into the padding of scanline 0 of the mask; scanline 1 of the mask
is never written. All four mask pixels are 0, the pixel `(0, 1)` included. -/
theorem padded_scanlines_misplace_mask :
    sqDist (rgb2x2 6 6 200 6) (rgb2x2 6 6 6 6) 0 1 = 112908 ∧
    (2304 : ℚ) < ((sqDist (rgb2x2 6 6 200 6) (rgb2x2 6 6 6 6) 0 1 : Int) : ℚ) ∧
    (CreateForegroundMaskAsync (oneFrameEnv (rgb2x2 6 6 200 6)) 0 (jpg "f0.jpg")
        ⟨some (rgb2x2 6 6 6 6)⟩ 2304 0).2.2.accessPixels = [0, 0, 255, 255, 0, 0, 0, 0] ∧
    ((CreateForegroundMaskAsync (oneFrameEnv (rgb2x2 6 6 200 6)) 0 (jpg "f0.jpg")
        ⟨some (rgb2x2 6 6 6 6)⟩ 2304 0).2.2.dib.map fun m =>
      ([m.width, m.height, m.bpp],
        [m.pixelAt 0 0, m.pixelAt 1 0, m.pixelAt 0 1, m.pixelAt 1 1])) =
      some ([2, 2, 8], [[0], [0], [0], [0]]) := by
  decide

/-- C6, the code at a failing input: two valid 8-bit masks of 2 by 2 pixels (scanlines of
2 bytes padded to 4), `A` all 0 and `B` all 255. The loop compares the first four bytes of
the two bitmaps, which are scanline 0 and its padding, and never reaches scanline 1: the
saved image holds 255, 255 in scanline 0 and 0, 0 in scanline 1, where `min(255, 2 * 255)`
is 255 for all four pixels. -/
theorem padded_scanlines_cut_delta :
    ((gray2x2 0 0 0 0).channel 0 1 0, (gray2x2 255 255 255 255).channel 0 1 0) = (0, 255) ∧
    ((CreateAndSaveDeltaAsync 0 ⟨"out", "f1.jpg", ".jpg"⟩ ⟨some (gray2x2 0 0 0 0)⟩
        ⟨some (gray2x2 255 255 255 255)⟩).map fun r => (r.1.filename, r.2.accessPixels)) =
      some ("f1.jpg", [255, 255, 0, 0, 0, 0, 0, 0]) ∧
    ((CreateAndSaveDeltaAsync 0 ⟨"out", "f1.jpg", ".jpg"⟩ ⟨some (gray2x2 0 0 0 0)⟩
        ⟨some (gray2x2 255 255 255 255)⟩).bind fun r => r.2.dib.map fun m =>
      ([m.width, m.height, m.bpp],
        [m.pixelAt 0 0, m.pixelAt 1 0, m.pixelAt 0 1, m.pixelAt 1 1])) =
      some ([2, 2, 8], [[255], [255], [0], [0]]) := by
  decide

/-- C7: for every chunk size `C ≥ 1` and every all-`.jpg` listing of `N ≥ 1` frames whose
last frame (the background) decodes, `main` runs to the end with nothing left pending; the
chunks it drained, one after another, hold the results of frames `0 .. N-1` in order, each
frame once; there are `N / C` chunks of exactly `C` frames, followed by one chunk of
`N mod C` frames when `C` does not divide `N`, so `⌈N / C⌉` chunks; and when all frames
decode, `N - 1` deltas are written. -/
theorem chunks_cover_frames (env : Env) (listing : List path) (out : String) (t : ℚ)
    (C : Nat) (hC : 1 ≤ C) (bl : Int) (last : path) (hlast : listing.getLast? = some last)
    (hjpg : ∀ x ∈ listing, x.extension = ".jpg") (hbg : (env.load last).isSome = true) :
    ∃ st, main env listing out t C bl = some st ∧
      st.foregroundImageTasks = [] ∧
      (st.chunks.flatten.map fun r => r.2.1) = listing ∧
      (∀ (i : Nat) (x : path), listing[i]? = some x →
        st.chunks.flatten[i]? = some (frameTask env listing t bl i x)) ∧
      st.chunks.map List.length =
        List.replicate (listing.length / C) C ++
          (if listing.length % C = 0 then [] else [listing.length % C]) ∧
      st.chunks.length = (listing.length + C - 1) / C ∧
      (SortsByIndex env.sort → (∀ x ∈ listing, (env.load x).isSome = true) →
        (written env listing out t C bl).length = listing.length - 1) := by
  obtain ⟨pre, rfl⟩ := List.getLast?_eq_some_iff.mp hlast
  obtain ⟨bg, hbg'⟩ := Option.isSome_iff_exists.mp hbg
  obtain ⟨hback, hmain, hpend, hflat⟩ := main_all_jpg env out t C bl pre last hjpg bg hbg'
  have hsizes := final_chunk_sizes env out ⟨some bg⟩ (env.fmul t t) bl C hC pre last hjpg
  refine ⟨_, hmain, hpend, ?_, ?_, hsizes, ?_, ?_⟩
  · rw [hflat, tasksFrom_all_jpg _ _ _ _ _ _ hjpg, List.map_map]
    have : ((fun r : Int × path × Image => r.2.1) ∘ fun p : Nat × path =>
        CreateForegroundMaskAsync env (p.1 : Int) p.2 ⟨some bg⟩ (env.fmul t t) bl) = Prod.snd := by
      funext p
      exact CFMA_path _ _ _ _ _ _
    rw [this, List.enumFrom_map_snd]
  · intro i x hi
    rw [hflat, tasksFrom_getElem? _ _ _ _ _ hjpg, hi, frameTask, hback]
    rfl
  · have := congrArg List.length hsizes
    rw [List.length_map] at this
    rw [this, ceil_div _ _ hC]
    split <;> simp
  · intro hsort hdec
    obtain ⟨hvalid, hlinks, -⟩ := main_all_decode hsort out t C bl pre last hjpg hdec bg hbg'
    have := congrArg List.length hlinks
    rw [List.length_map, chain_none_length hvalid, tasksFrom_length _ _ _ _ _ hjpg] at this
    exact this

/-- Witness for C7: five frames, chunk size 2. -/
theorem chunks_cover_frames_witness :
    (1 : Nat) ≤ 2 ∧ five.getLast? = some (jpg "f4.jpg") ∧
    (∀ x ∈ five, x.extension = ".jpg") ∧
    ((demoEnv [] []).load (jpg "f4.jpg")).isSome = true ∧
    ∃ st, main (demoEnv [] []) five "out" 48 ((2 : Nat) : Int) 0 = some st ∧
      st.foregroundImageTasks = [] ∧
      (st.chunks.flatten.map fun r => r.2.1) = five ∧
      (∀ (i : Nat) (x : path), five[i]? = some x →
        st.chunks.flatten[i]? = some (frameTask (demoEnv [] []) five 48 0 i x)) ∧
      st.chunks.map List.length =
        List.replicate (five.length / 2) 2 ++
          (if five.length % 2 = 0 then [] else [five.length % 2]) ∧
      st.chunks.length = (five.length + 2 - 1) / 2 ∧
      (SortsByIndex (demoEnv [] []).sort → (∀ x ∈ five, ((demoEnv [] []).load x).isSome = true) →
        (written (demoEnv [] []) five "out" 48 ((2 : Nat) : Int) 0).length = five.length - 1) :=
  ⟨by decide, by decide, by decide, by decide,
    chunks_cover_frames (demoEnv [] []) five "out" 48 2 (by decide) 0 (jpg "f4.jpg") (by decide)
      (by decide) (by decide)⟩

/-- C8, the code at a failing input: with chunk size 2 and the entries `a.jpg`, `x.txt`,
`b.jpg`, `y.txt`, `c.jpg`, `d.jpg`, the frames are met at `fileCount` 1, 3, 5 and 6 and
`numFiles` is 4, so the first drain happens at the fourth frame: four masking tasks are
pending at once, twice the chunk size. -/
theorem skipped_entries_overfill_chunk :
    countFrames [jpg "a.jpg", txt "x.txt", jpg "b.jpg", txt "y.txt", jpg "c.jpg",
      jpg "d.jpg"] = (4, jpg "d.jpg") ∧
    (main (demoEnv [] []) [jpg "a.jpg", txt "x.txt", jpg "b.jpg", txt "y.txt", jpg "c.jpg",
      jpg "d.jpg"] "out" 48 2 3).map
        (fun st => (st.maxPending, st.chunks.map List.length)) = some (4, [4]) := by
  decide

/-- C9: for every non-empty all-`.jpg` listing whose last frame decodes (so in particular
when all frames decode), every threshold and `blurIterations = 0`: `main` loads the last
entry as background, and the result collected last, which is the result of the task
submitted for the last frame, carries the index `N - 1`, the path of that frame and a valid
8-bit mask of the frame's width and height whose scanlines hold only bytes 0. -/
theorem last_frame_mask_is_zero (env : Env) (listing : List path) (out : String) (t : ℚ)
    (C : Int) (_hC : 1 ≤ C) (last : path) (hlast : listing.getLast? = some last)
    (hjpg : ∀ x ∈ listing, x.extension = ".jpg") (fg : FIBITMAP)
    (hdec : env.load last = some fg) :
    backgroundOf env listing = ⟨some fg⟩ ∧
    ∃ st m, main env listing out t C 0 = some st ∧
      st.chunks.flatten.getLast? = some (((listing.length - 1 : Nat) : Int), last, ⟨some m⟩) ∧
      frameTask env listing t 0 (listing.length - 1) last =
        (((listing.length - 1 : Nat) : Int), last, ⟨some m⟩) ∧
      m.width = fg.width ∧ m.height = fg.height ∧ m.bpp = 8 ∧
      m.bits.length = FreeImage_GetPitch m * m.height ∧ (∀ b ∈ m.bits, b = 0) ∧
      ∀ xi yi, xi < m.width → yi < m.height → m.pixelAt xi yi = [0] := by
  obtain ⟨pre, rfl⟩ := List.getLast?_eq_some_iff.mp hlast
  obtain ⟨hback, hmain, -, hflat⟩ := main_all_jpg env out t C 0 pre last hjpg fg hdec
  obtain ⟨m, hm, h1, h2, h3, h4, h5⟩ :=
    CFMA_blur_zero hdec (pre.length : Int) ⟨some fg⟩ (env.fmul t t)
  have hlen : (pre ++ [last]).length - 1 = pre.length := by simp
  have hzero : ∀ b ∈ m.bits, b = 0 := by
    rw [h4]
    intro b hb
    rcases List.mem_append.mp hb with hb | hb
    · exact maskLoop_self _ _ _ _ (env.fmul_self_nonneg t) b hb
    · exact (List.mem_replicate.mp hb).2
  refine ⟨hback, _, m, hmain, ?_, ?_, h1, h2, h3, h5, hzero, ?_⟩
  · rw [hflat, tasksFrom_append, hlen]
    simp [tasksFrom, not_jpg_false (hjpg last (by simp)), hm]
  · rw [frameTask, hback, hlen, hm]
  · intro xi yi hx hy
    exact pixelAt_of_zero m h3 h5 hzero hx hy

/-- Witness for C9: five frames, chunk size 2, threshold 48. -/
theorem last_frame_mask_is_zero_witness :
    (1 : Int) ≤ 2 ∧ five.getLast? = some (jpg "f4.jpg") ∧
    (∀ x ∈ five, x.extension = ".jpg") ∧
    (demoEnv [] ["f1.jpg"]).load (jpg "f4.jpg") = some (px 6) ∧
    (backgroundOf (demoEnv [] ["f1.jpg"]) five = ⟨some (px 6)⟩ ∧
    ∃ st m, main (demoEnv [] ["f1.jpg"]) five "out" 48 2 0 = some st ∧
      st.chunks.flatten.getLast? =
        some (((five.length - 1 : Nat) : Int), jpg "f4.jpg", ⟨some m⟩) ∧
      frameTask (demoEnv [] ["f1.jpg"]) five 48 0 (five.length - 1) (jpg "f4.jpg") =
        (((five.length - 1 : Nat) : Int), jpg "f4.jpg", ⟨some m⟩) ∧
      m.width = (px 6).width ∧ m.height = (px 6).height ∧ m.bpp = 8 ∧
      m.bits.length = FreeImage_GetPitch m * m.height ∧ (∀ b ∈ m.bits, b = 0) ∧
      ∀ xi yi, xi < m.width → yi < m.height → m.pixelAt xi yi = [0]) :=
  ⟨by decide, by decide, by decide, by decide,
    last_frame_mask_is_zero (demoEnv [] ["f1.jpg"]) five "out" 48 2 (by decide) (jpg "f4.jpg")
      (by decide) (by decide) (px 6) (by decide)⟩

/-- C10: in a chunk in which no frame failed to decode, the results as collected at the
drain barrier (one `get()` per task, in submission order) have strictly ascending indices,
and sorting the chunk by index returns it unchanged, whatever conforming sort is used: the
order handed to the delta loop is the submission order. -/
theorem collected_chunk_already_sorted (env : Env) (hsort : SortsByIndex env.sort)
    (listing : List path) (out : String) (t : ℚ) (C bl : Int)
    (c : List (Int × path × Image)) (hc : c ∈ collected env listing out t C bl)
    (hdec : ∀ r ∈ c, (env.load r.2.1).isSome = true) :
    c.Pairwise (fun a b => a.1 < b.1) ∧ env.sort c = c := by
  unfold collected at hc
  rw [main_eq] at hc
  cases hbg : env.load (countFrames listing).2 with
  | none => simp [hbg] at hc
  | some bg =>
    simp only [hbg, Option.map_some'] at hc
    have hb := (frameLoop_tasks env out ⟨some bg⟩ (env.fmul t t) C bl (countFrames listing).1
      listing).2
    obtain ⟨A, B, hAB⟩ := List.append_of_mem hc
    rw [hAB] at hb
    have hb' : A.flatten ++ c ++ (B.flatten ++
        (frameLoop env out ⟨some bg⟩ (env.fmul t t) C bl (countFrames listing).1
          listing).foregroundImageTasks) =
        tasksFrom env ⟨some bg⟩ (env.fmul t t) bl 0 listing := by
      rw [← hb]; simp
    obtain ⟨-, -, hasc⟩ := infix_wellformed hb'
    have hvalid : ∀ r ∈ c, validT r = true := by
      intro r hr
      have hmem : r ∈ tasksFrom env ⟨some bg⟩ (env.fmul t t) bl 0 listing := by
        rw [← hb']; exact List.mem_append_left _ (List.mem_append_right _ hr)
      obtain ⟨i, x, -, -, hrx⟩ := tasksFrom_mem _ _ _ _ _ _ _ hmem
      have hp : r.2.1 = x := by rw [hrx]; exact CFMA_path _ _ _ _ _ _
      have := hdec r hr
      rw [hp] at this
      rw [validT, hrx, CFMA_valid]
      exact this
    have hstrict : c.Pairwise (fun a b => a.1 < b.1) := by
      have := valid_ascending hasc
      rwa [List.filter_eq_self.mpr hvalid] at this
    exact ⟨hstrict, sort_valid_ascending hsort hvalid hstrict⟩

/-- Witness for C10: the second chunk of five decodable frames with chunk size 2. -/
theorem collected_chunk_already_sorted_witness :
    SortsByIndex (demoEnv [] []).sort ∧
    ((collected (demoEnv [] []) five "out" 48 2 0).getD 1 []).length = 2 ∧
    (collected (demoEnv [] []) five "out" 48 2 0).getD 1 [] ∈
      collected (demoEnv [] []) five "out" 48 2 0 ∧
    (∀ r ∈ (collected (demoEnv [] []) five "out" 48 2 0).getD 1 [],
      ((demoEnv [] []).load r.2.1).isSome = true) ∧
    (((collected (demoEnv [] []) five "out" 48 2 0).getD 1 []).Pairwise
        (fun a b => a.1 < b.1) ∧
      (demoEnv [] []).sort ((collected (demoEnv [] []) five "out" 48 2 0).getD 1 []) =
        (collected (demoEnv [] []) five "out" 48 2 0).getD 1 []) :=
  have hlen : 1 < (collected (demoEnv [] []) five "out" 48 2 0).length := by decide
  have hmem : (collected (demoEnv [] []) five "out" 48 2 0).getD 1 [] ∈
      collected (demoEnv [] []) five "out" 48 2 0 := by
    rw [List.getD_eq_getElem _ _ hlen]
    exact List.getElem_mem hlen
  have hdec : ∀ r ∈ (collected (demoEnv [] []) five "out" 48 2 0).getD 1 [],
      ((demoEnv [] []).load r.2.1).isSome = true := fun r _ => by simp [demoEnv]
  ⟨insertionSortUnchecked_sorts, by decide, hmem, hdec,
    collected_chunk_already_sorted (demoEnv [] []) insertionSortUnchecked_sorts five "out" 48 2 0 _
      hmem hdec⟩

end GregTrack
